import Mathlib

/-!
Verification of the link-rewriting and crawling core of the texttyoBB
repository (src/scraper.py and src/proxy_server.py).

Strings are modelled as lists of characters.  The Python standard-library
URL helpers that both files call (urllib.parse.urlparse / urljoin) are
embedded following CPython's implementation of urlsplit, urlparse,
urlunsplit, urlunparse and urljoin; the IPv6-bracket ValueError raised by
urlsplit on malformed bracketed hosts is not modelled (every input
considered by the theorems below is bracket-free), and neither is the
NFKC netloc check, which only concerns non-ASCII input.
-/

/-- Characters CPython allows in a URL scheme (scheme_chars: ASCII
letters, digits, and the three characters plus, minus, dot). -/
def isSchemeChar (c : Char) : Bool :=
  c.isAlpha || c.isDigit || c == '+' || c == '-' || c == '.'

/-- Characters kept by urlsplit's removal of tab, CR and LF. -/
def keptByUnsafeRemoval (c : Char) : Bool := c != '\t' && c != '\r' && c != '\n'

/-- The C0-control-or-space characters urlsplit strips from the left. -/
def isC0OrSpace (c : Char) : Bool := decide (c.toNat ≤ 32)

/-- Everything except the colon that ends a scheme. -/
def notColon (c : Char) : Bool := c != ':'

/-- Everything except the three characters that end a netloc. -/
def notNetlocEnd (c : Char) : Bool := c != '/' && c != '?' && c != '#'

/-- Does the list start with the given pattern (str.startswith)? -/
def startsWithCS : List Char → List Char → Bool
  | [], _ => true
  | _ :: _, [] => false
  | p :: ps, c :: rest => p == c && startsWithCS ps rest

/-- Split at the first occurrence of `c`: `none` when `c` is absent,
otherwise the parts strictly before and strictly after it. -/
def splitOnceChar (c : Char) (s : List Char) : Option (List Char × List Char) :=
  match s.dropWhile (fun a => a != c) with
  | [] => none
  | _ :: rest => some (s.takeWhile (fun a => a != c), rest)

/-- Python `if sep in url: url, tail = url.split(sep, 1)`: the part
before the first occurrence of `c` and the (possibly empty) tail after
it. -/
def splitTail (c : Char) (s : List Char) : List Char × List Char :=
  match splitOnceChar c s with
  | some pq => (pq.1, pq.2)
  | none => (s, [])

/-- str.split(sep) for a one-character separator: always returns at least
one (possibly empty) part. -/
def splitChar (c : Char) : List Char → List (List Char)
  | [] => [[]]
  | a :: rest =>
    if a == c then [] :: splitChar c rest
    else
      match splitChar c rest with
      | [] => [[a]]
      | p :: ps => (a :: p) :: ps

/-- sep.join(parts) for a one-character separator. -/
def joinChar (c : Char) : List (List Char) → List Char
  | [] => []
  | [p] => p
  | p :: ps => p ++ c :: joinChar c ps

/-- Result record of urlsplit. -/
structure UrlSplitResult where
  scheme : List Char
  netloc : List Char
  path : List Char
  query : List Char
  fragment : List Char
deriving Repr, DecidableEq

/-- CPython urllib.parse.urlsplit (allow_fragments=True).  Tab, CR and LF
are removed, leading C0-control-or-space characters are stripped, a valid
scheme prefix is recognised and lowercased (falling back to the supplied
default scheme), a `//`-led netloc is cut at the first of `/?#`, and the
fragment and query are split off at the first `#` and `?`. -/
def urlsplit (defaultScheme url0 : List Char) : UrlSplitResult :=
  let url1 := url0.filter keptByUnsafeRemoval
  let url2 := url1.dropWhile isC0OrSpace
  let pre := url2.takeWhile notColon
  let schemeOK := pre.length < url2.length
      && (match pre with
          | [] => false
          | c :: _ => c.isAlpha)
      && pre.all isSchemeChar
  let scheme := if schemeOK then pre.map Char.toLower else defaultScheme
  let rest := if schemeOK then url2.drop (pre.length + 1) else url2
  let netloc :=
    if startsWithCS (("//").data) rest then
      (rest.drop 2).takeWhile notNetlocEnd
    else []
  let rest2 :=
    if startsWithCS (("//").data) rest then
      (rest.drop 2).dropWhile notNetlocEnd
    else rest
  let rest3 := (splitTail '#' rest2).1
  let fragment := (splitTail '#' rest2).2
  let path := (splitTail '?' rest3).1
  let query := (splitTail '?' rest3).2
  ⟨scheme, netloc, path, query, fragment⟩

/-- Result record of urlparse (urlsplit plus the params component). -/
structure UrlParseResult where
  scheme : List Char
  netloc : List Char
  path : List Char
  params : List Char
  query : List Char
  fragment : List Char
deriving Repr, DecidableEq

/-- Schemes for which urlparse splits `;params` off the last path
segment (CPython uses_params). -/
def uses_params : List (List Char) :=
  [([]), ("ftp").data, ("hdl").data, ("prospero").data, ("http").data,
   ("imap").data, ("https").data, ("shttp").data, ("rtsp").data,
   ("rtspu").data, ("sip").data, ("sips").data, ("mms").data,
   ("sftp").data, ("tel").data]

/-- CPython urllib.parse._splitparams: look for `;` in the last path
segment only (after the last `/` when one is present). -/
def splitparams (p : List Char) : List Char × List Char :=
  if p.contains '/' then
    let lastSeg := (p.reverse.takeWhile (fun c => c != '/')).reverse
    let head := p.take (p.length - lastSeg.length)
    match splitOnceChar ';' lastSeg with
    | none => (p, [])
    | some ab => (head ++ ab.1, ab.2)
  else
    match splitOnceChar ';' p with
    | none => (p, [])
    | some ab => (ab.1, ab.2)

/-- CPython urllib.parse.urlparse. -/
def urlparse (defaultScheme url : List Char) : UrlParseResult :=
  let r := urlsplit defaultScheme url
  if uses_params.contains r.scheme && r.path.contains ';' then
    let pp := splitparams r.path
    ⟨r.scheme, r.netloc, pp.1, pp.2, r.query, r.fragment⟩
  else
    ⟨r.scheme, r.netloc, r.path, [], r.query, r.fragment⟩

/-- CPython urllib.parse.urlunsplit. -/
def urlunsplit (scheme netloc path query fragment : List Char) : List Char :=
  let url := path
  let url :=
    if netloc != [] || (url != [] && startsWithCS (("//").data) url) then
      let url2 := if url != [] && !(startsWithCS (("/").data) url) then '/' :: url else url
      ("//").data ++ netloc ++ url2
    else url
  let url := if scheme != [] then scheme ++ ':' :: url else url
  let url := if query != [] then url ++ '?' :: query else url
  if fragment != [] then url ++ '#' :: fragment else url

/-- CPython urllib.parse.urlunparse. -/
def urlunparse (scheme netloc path params query fragment : List Char) : List Char :=
  let p := if params != [] then path ++ ';' :: params else path
  urlunsplit scheme netloc p query fragment

/-- Schemes that may use relative references (CPython uses_relative). -/
def uses_relative : List (List Char) :=
  [([]), ("ftp").data, ("http").data, ("gopher").data, ("nntp").data,
   ("imap").data, ("wais").data, ("file").data, ("https").data,
   ("shttp").data, ("mms").data, ("prospero").data, ("rtsp").data,
   ("rtspu").data, ("sftp").data, ("svn").data, ("svn+ssh").data,
   ("ws").data, ("wss").data]

/-- Schemes that use a network location (CPython uses_netloc). -/
def uses_netloc : List (List Char) :=
  [([]), ("ftp").data, ("http").data, ("gopher").data, ("nntp").data,
   ("telnet").data, ("imap").data, ("wais").data, ("file").data,
   ("mms").data, ("https").data, ("shttp").data, ("snews").data,
   ("prospero").data, ("rtsp").data, ("rtspu").data, ("rsync").data,
   ("sftp").data, ("svn").data, ("svn+ssh").data, ("ws").data,
   ("wss").data]

/-- CPython urllib.parse.urljoin (allow_fragments=True). -/
def urljoin (base url : List Char) : List Char :=
  if base = [] then url
  else if url = [] then base
  else
    let b := urlparse [] base
    let u := urlparse b.scheme url
    if u.scheme != b.scheme || !(uses_relative.contains u.scheme) then url
    else if uses_netloc.contains u.scheme && u.netloc != [] then
      urlunparse u.scheme u.netloc u.path u.params u.query u.fragment
    else
      let netloc := if uses_netloc.contains u.scheme then b.netloc else u.netloc
      if u.path = [] && u.params = [] then
        let query := if u.query = [] then b.query else u.query
        urlunparse u.scheme netloc b.path b.params query u.fragment
      else
        let base_parts := splitChar '/' b.path
        let base_parts :=
          if (base_parts.getLast?.getD []) != [] then base_parts.dropLast else base_parts
        let segments :=
          if startsWithCS (("/").data) u.path then splitChar '/' u.path
          else
            match base_parts ++ splitChar '/' u.path with
            | [] => []
            | x :: rest =>
              match rest with
              | [] => [x]
              | _ :: _ => x :: ((rest.dropLast.filter (fun s => s != [])) ++ [rest.getLast?.getD []])
        let resolved := segments.foldl
          (fun acc seg =>
            if seg = ("..").data then acc.dropLast
            else if seg = (".").data then acc
            else acc ++ [seg]) ([] : List (List Char))
        let resolved :=
          if (segments.getLast?.getD []) == (".").data
              || (segments.getLast?.getD []) == ("..").data then
            resolved ++ [[]]
          else resolved
        let newpath := joinChar '/' resolved
        let newpath := if newpath = [] then ("/").data else newpath
        urlunparse u.scheme netloc newpath u.params u.query u.fragment

example : urljoin (("http://example.com").data) (("page2").data)
    = ("http://example.com/page2").data := by decide

example : urljoin (("http://example.com").data) (("http://example.com/page2?x=1").data)
    = ("http://example.com/page2?x=1").data := by decide

example : urljoin (("http://example.com/a/b?z=1").data) (("../d").data)
    = ("http://example.com/d").data := by decide

example : urlparse [] (("data:image/png;base64,AAA").data)
    = ⟨("data").data, [], ("image/png;base64,AAA").data, [], [], []⟩ := by decide

example : urlparse [] (("http://example.com/page2?x=1").data)
    = ⟨("http").data, ("example.com").data, ("/page2").data, [], ("x=1").data, []⟩ := by decide

example : urlparse [] (("http://example.com/a;b?q#f").data)
    = ⟨("http").data, ("example.com").data, ("/a").data, ("b").data, ("q").data, ("f").data⟩ := by
  decide

example : urljoin (("http://example.com").data) (("//cdn.other.com/a.png").data)
    = ("http://cdn.other.com/a.png").data := by decide

example : urljoin (("http://example.com").data) (("a:b;").data) = ("a:b;").data := by decide

example : urljoin (("http://example.com/a/b").data) (("c/./d/../e").data)
    = ("http://example.com/a/c/e").data := by decide

example : urljoin (("http://example.com").data) (("?only=query").data)
    = ("http://example.com?only=query").data := by decide

example : urljoin (("http://example.com/x;p?q#f").data) []
    = ("http://example.com/x;p?q#f").data := by decide

example : urljoin (("http://example.com").data) (("HTTP://EXAMPLE.com/UP?Q").data)
    = ("http://EXAMPLE.com/UP?Q").data := by decide

example : urljoin (("http://example.com").data) (("/abs;par?q").data)
    = ("http://example.com/abs;par?q").data := by decide

example : urljoin (("http://example.com/a/").data) (("..").data)
    = ("http://example.com/").data := by decide

example : urlparse [] (("//host/p?q").data)
    = ⟨[], ("host").data, ("/p").data, [], ("q").data, []⟩ := by decide

example : urlparse [] (("/a:b").data) = ⟨[], [], ("/a:b").data, [], [], []⟩ := by decide

example : urlparse [] (("a:b;").data) = ⟨("a").data, [], ("b;").data, [], [], []⟩ := by decide

example : urlparse [] (("x;y/z;w").data)
    = ⟨[], [], ("x;y/z").data, ("w").data, [], []⟩ := by decide

example : urlparse [] (("http://h/x;y/z").data)
    = ⟨("http").data, ("h").data, ("/x;y/z").data, [], [], []⟩ := by decide

example : urlparse [] (("  http://h/p").data)
    = ⟨("http").data, ("h").data, ("/p").data, [], [], []⟩ := by decide

/-!
ProxyServer (src/proxy_server.py).  The server state set by set_target is
the pair (scheme, target_domain); base_url is derived from it exactly as
in set_target.
-/

/-- ProxyServer.base_url as assembled by set_target (proxy_server.py
line 42). -/
def proxy_base_url (scheme target : List Char) : List Char :=
  scheme ++ ("://").data ++ target

/-- ProxyServer.is_same_domain (proxy_server.py lines 50-61).  The
bare-except path only fires for the unmodelled bracket ValueError. -/
def is_same_domain (scheme target url : List Char) : Bool :=
  if url = [] then false
  else
    let url2 := if startsWithCS (("//").data) url then scheme ++ ':' :: url else url
    if startsWithCS (("/").data) url2 then true
    else
      let parsed := urlparse [] url2
      parsed.netloc == target || parsed.netloc == []

/-- The resolution step of ProxyServer.modify_content (proxy_server.py
lines 83-88): protocol-relative references get the target scheme,
root-relative references are glued onto base_url, anything else goes
through urljoin against base_url. -/
def proxy_resolve (scheme target v : List Char) : List Char :=
  if startsWithCS (("//").data) v then scheme ++ ':' :: v
  else if startsWithCS (("/").data) v then proxy_base_url scheme target ++ v
  else urljoin (proxy_base_url scheme target) v

/-- The rewrite ProxyServer.modify_content applies to one link attribute
value (proxy_server.py lines 75-95): skip data:/javascript:, resolve via
proxy_resolve, and if same-domain replace the value by `/` plus the
resolved path (plus `?query` when a query is present) with leading
slashes stripped. -/
def rewrite_url (scheme target v : List Char) : List Char :=
  if startsWithCS (("data:").data) v then v
  else if startsWithCS (("javascript:").data) v then v
  else
    let url := proxy_resolve scheme target v
    if is_same_domain scheme target url then
      let parsed := urlparse [] url
      let path := if parsed.query != [] then parsed.path ++ '?' :: parsed.query else parsed.path
      '/' :: path.dropWhile (fun c => c == '/')
    else v

example : rewrite_url (("http").data) (("example.com").data) (("http://example.com/page2?x=1").data)
    = ("/page2?x=1").data := by decide

example : rewrite_url (("http").data) (("example.com").data) (("http://cdn.other.com/a.png").data)
    = ("http://cdn.other.com/a.png").data := by decide

example : rewrite_url (("http").data) (("example.com").data) (("http://example.com").data)
    = ("/").data := by decide

/-- The single-quote character (written by code point to keep it out of
string literals). -/
def squote : Char := Char.ofNat 39

/-- The double-quote character. -/
def dquote : Char := Char.ofNat 34

/-- Is the character one of the two quote characters the style regex
tolerates? -/
def isQuoteChar (c : Char) : Bool := c == squote || c == dquote

/-- Scan for the lazy terminator of the regex `url\(['"]?(.*?)['"]?\)`:
the capture ends at the first `)` or at the first quote immediately
followed by `)`.  Returns the capture and the remainder after the
closing parenthesis. -/
def termScan (acc : List Char) : List Char → Option (List Char × List Char)
  | [] => none
  | c :: rest =>
    if c == ')' then some (acc.reverse, rest)
    else if isQuoteChar c then
      match rest with
      | ')' :: r2 => some (acc.reverse, r2)
      | _ => termScan (c :: acc) rest
    else termScan (c :: acc) rest

/-- Python str.replace: replace every non-overlapping occurrence of `old`
(scanning left to right) by `new`.  Indexed by fuel so the recursion is
structural and kernel-reducible; the wrapper supplies fuel equal to the
string length, which the scan never exhausts, since every step consumes
at least one character.  The empty-pattern case (which Python treats as
inserting between characters) never arises below and leaves the string
unchanged. -/
def pyReplaceGo (old new : List Char) : Nat → List Char → List Char
  | _, [] => []
  | 0, s => s
  | fuel + 1, c :: rest =>
    if old != [] && startsWithCS old (c :: rest) then
      new ++ pyReplaceGo old new fuel ((c :: rest).drop old.length)
    else
      c :: pyReplaceGo old new fuel rest

/-- Python str.replace via pyReplaceGo with sufficient fuel. -/
def pyReplace (old new s : List Char) : List Char :=
  pyReplaceGo old new s.length s

/-- One match attempt of the regex `url\(['"]?(.*?)['"]?\)` scanning from
the left: locate the next literal `url(`, optionally consume one leading
quote, and end the lazy capture at the first closing parenthesis (or
quote-then-parenthesis).  Returns the capture and the remainder after
the match, or `none` when no further match succeeds (once a `url(` has
no terminator to its right, every later attempt fails for the same
reason, which is how re.findall behaves here). -/
def nextUrlMatch : List Char → Option (List Char × List Char)
  | [] => none
  | c :: rest =>
    if startsWithCS (("url(").data) (c :: rest) then
      match (c :: rest).drop 4 with
      | q :: r2 => if isQuoteChar q then termScan [] r2 else termScan [] (q :: r2)
      | [] => none
    else nextUrlMatch rest

/-- Fuel-indexed iteration of nextUrlMatch (each successful match
strictly shortens the remainder, so length-plus-one fuel suffices). -/
def findUrlGo : Nat → List Char → List (List Char)
  | 0, _ => []
  | fuel + 1, s =>
    match nextUrlMatch s with
    | some capRest => capRest.1 :: findUrlGo fuel capRest.2
    | none => []

/-- re.findall of the pattern `url\(['"]?(.*?)['"]?\)` on the whole
string. -/
def findUrlMatches (s : List Char) : List (List Char) :=
  findUrlGo (s.length + 1) s

/-- The inline-style rewriting loop of ProxyServer.modify_content
(proxy_server.py lines 99-104 and 109-113): collect the url(...)
captures of the original string once, then for each capture that starts
with `/` textually replace `url(<capture>)` by `url(<base_url><capture>)`
in the running string. -/
def style_once (bu s : List Char) : List Char :=
  (findUrlMatches s).foldl
    (fun acc u =>
      if startsWithCS (("/").data) u then
        pyReplace (("url(").data ++ u ++ [')']) (("url(").data ++ bu ++ u ++ [')']) acc
      else acc) s

example : style_once (("http://example.com").data) (("background:url(/p)").data)
    = ("background:url(http://example.com/p)").data := by decide

example : findUrlMatches ((("url(").data ++ [squote] ++ ("/p").data ++ [squote, ')']))
    = [("/p").data] := by decide

/-- The Content-Type extraction of the proxy endpoint (proxy_server.py
line 157): everything before the first `;` of the header value. -/
def content_type_of (header : List Char) : List Char :=
  header.takeWhile (fun c => c != ';')

/-- The body dispatch of the proxy endpoint (proxy_server.py lines
156-180).  `modify` stands for modify_content applied through the
external parse/serialise capability; bodies whose content type makes the
endpoint stream (non-text, non-javascript, non-json) pass through
unchanged, text bodies are re-emitted, and only text/html bodies are
passed to modify_content. -/
def proxy_transform {α : Type} (header : List Char) (modify : α → α) (body : α) : α :=
  let ct := content_type_of header
  if !(startsWithCS (("text/").data) ct)
      && !(startsWithCS (("application/javascript").data) ct)
      && !(startsWithCS (("application/json").data) ct) then
    body
  else if startsWithCS (("text/html").data) ct then modify body
  else body

/-!
Document trees.  BeautifulSoup's parsed document is modelled as a forest
of nodes; parsing and serialising are the external document-parse
capability, so both scrape_page and modify_content are embedded as tree
transformations between the parse and the final str(soup).
-/

mutual
/-- A parsed document node: an element with a tag name, an attribute
list (BeautifulSoup attributes are unique per tag) and children, or a
text node. -/
inductive Node where
  | elem (tag : List Char) (attrs : List (List Char × List Char)) (children : NodeList) : Node
  | text (s : List Char) : Node

/-- A list of sibling nodes. -/
inductive NodeList where
  | nil : NodeList
  | cons (n : Node) (ns : NodeList) : NodeList
end

/-- Tags whose attributes scrape_page normalises (scraper.py line 207). -/
def scrape_tags : List (List Char) :=
  [("img").data, ("video").data, ("iframe").data, ("source").data,
   ("link").data, ("script").data]

/-- Attributes scrape_page normalises (scraper.py line 208). -/
def scrape_attrs : List (List Char) :=
  [("src").data, ("href").data, ("data-src").data]

mutual
/-- The attribute-normalisation loop of WebScraper.scrape_page
(scraper.py lines 207-211): on the listed tags, every present, non-empty
listed attribute is replaced by urljoin(pageUrl, value). -/
def scrapeNormNode (pageUrl : List Char) : Node → Node
  | .elem tag attrs children =>
    let attrs2 :=
      if scrape_tags.contains tag then
        attrs.map (fun kv =>
          if scrape_attrs.contains kv.1 && kv.2 != [] then (kv.1, urljoin pageUrl kv.2) else kv)
      else attrs
    .elem tag attrs2 (scrapeNormList pageUrl children)
  | .text s => .text s

/-- scrapeNormNode mapped over a sibling list. -/
def scrapeNormList (pageUrl : List Char) : NodeList → NodeList
  | .nil => .nil
  | .cons n ns => .cons (scrapeNormNode pageUrl n) (scrapeNormList pageUrl ns)
end

/-- Tags scrape_page decomposes after normalising (scraper.py line 214). -/
def decompose_tags : List (List Char) := [("script").data, ("style").data]

/-- The decompose loop of scrape_page (scraper.py lines 214-215): every
script and style element is removed together with its whole subtree. -/
def stripScriptsList : NodeList → NodeList
  | .nil => .nil
  | .cons (.text s) ns => .cons (.text s) (stripScriptsList ns)
  | .cons (.elem tag attrs children) ns =>
    if decompose_tags.contains tag then stripScriptsList ns
    else .cons (.elem tag attrs (stripScriptsList children)) (stripScriptsList ns)

/-- WebScraper.scrape_page (scraper.py lines 188-217) as a document
transformation: resource attributes are resolved to absolute URLs, then
script and style subtrees are removed; fetching the page and serialising
the result are external. -/
def scrape_page_tree (pageUrl : List Char) (doc : NodeList) : NodeList :=
  stripScriptsList (scrapeNormList pageUrl doc)

/-- Tags whose attributes modify_content rewrites (proxy_server.py
line 72). -/
def proxy_tags : List (List Char) :=
  [("a").data, ("link").data, ("script").data, ("img").data,
   ("form").data, ("iframe").data]

/-- Attributes modify_content rewrites (proxy_server.py line 73). -/
def proxy_attrs : List (List Char) :=
  [("href").data, ("src").data, ("action").data]

mutual
/-- The link-attribute loop of ProxyServer.modify_content
(proxy_server.py lines 72-95): on the listed tags, every present
non-empty listed attribute value is passed through rewrite_url. -/
def proxyLinkNode (scheme target : List Char) : Node → Node
  | .elem tag attrs children =>
    let attrs2 :=
      if proxy_tags.contains tag then
        attrs.map (fun kv =>
          if proxy_attrs.contains kv.1 && kv.2 != [] then
            (kv.1, rewrite_url scheme target kv.2)
          else kv)
      else attrs
    .elem tag attrs2 (proxyLinkList scheme target children)
  | .text s => .text s

/-- proxyLinkNode mapped over a sibling list. -/
def proxyLinkList (scheme target : List Char) : NodeList → NodeList
  | .nil => .nil
  | .cons n ns => .cons (proxyLinkNode scheme target n) (proxyLinkList scheme target ns)
end

/-- soup.find('base') plus decompose (proxy_server.py lines 67-69):
remove the first base element in document (pre-order) together with its
subtree; the Bool records whether one was found. -/
def removeFirstBaseList : NodeList → Bool × NodeList
  | .nil => (false, .nil)
  | .cons (.text s) ns =>
    let r := removeFirstBaseList ns
    (r.1, .cons (.text s) r.2)
  | .cons (.elem tag attrs children) ns =>
    if tag == ("base").data then (true, ns)
    else
      let rc := removeFirstBaseList children
      if rc.1 then (true, .cons (.elem tag attrs rc.2) ns)
      else
        let rs := removeFirstBaseList ns
        (rs.1, .cons (.elem tag attrs children) rs.2)

mutual
/-- The inline-style loop of modify_content (proxy_server.py lines
98-104): every element carrying a style attribute has that attribute run
through the url(...) rewriting. -/
def styleAttrNode (bu : List Char) : Node → Node
  | .elem tag attrs children =>
    let attrs2 := attrs.map (fun kv =>
      if kv.1 == ("style").data then (kv.1, style_once bu kv.2) else kv)
    .elem tag attrs2 (styleAttrList bu children)
  | .text s => .text s

/-- styleAttrNode mapped over a sibling list. -/
def styleAttrList (bu : List Char) : NodeList → NodeList
  | .nil => .nil
  | .cons n ns => .cons (styleAttrNode bu n) (styleAttrList bu ns)
end

/-- BeautifulSoup Tag.string: the single text child, following a chain
of single element children; `none` for zero or several children. -/
def dotString : NodeList → Option (List Char)
  | .cons (.text s) .nil => some s
  | .cons (.elem _ _ children) .nil => dotString children
  | _ => none

mutual
/-- The style-element loop of modify_content (proxy_server.py lines
107-113): a style element whose .string is non-empty has its whole child
list replaced by the rewritten string (inner elements of a .string
chain are discarded by the .string assignment, matching BeautifulSoup,
whose later loop iterations then mutate only detached tags); other
elements recurse into their children. -/
def styleElemNode (bu : List Char) : Node → Node
  | .elem tag attrs children =>
    if tag == ("style").data then
      match dotString children with
      | some s =>
        if s != [] then .elem tag attrs (.cons (.text (style_once bu s)) .nil)
        else .elem tag attrs (styleElemList bu children)
      | none => .elem tag attrs (styleElemList bu children)
    else .elem tag attrs (styleElemList bu children)
  | .text s => .text s

/-- styleElemNode mapped over a sibling list. -/
def styleElemList (bu : List Char) : NodeList → NodeList
  | .nil => .nil
  | .cons n ns => .cons (styleElemNode bu n) (styleElemList bu ns)
end

/-- ProxyServer.modify_content (proxy_server.py lines 63-115) as a
document transformation, in source order: drop the first base element,
rewrite link attributes, rewrite inline style attributes, rewrite style
elements. -/
def modify_content_tree (scheme target : List Char) (doc : NodeList) : NodeList :=
  let d1 := (removeFirstBaseList doc).2
  let d2 := proxyLinkList scheme target d1
  let d3 := styleAttrList (proxy_base_url scheme target) d2
  styleElemList (proxy_base_url scheme target) d3

/-!
WebScraper pattern learning and the crawl session (src/scraper.py).
-/

/-- Python str.isdigit restricted to ASCII input: non-empty and all
digits. -/
def pyIsDigit (s : List Char) : Bool :=
  s != [] && s.all (fun c => c.isDigit)

/-- re.match of `\d{4}-\d{2}-\d{2}` (a prefix match: anything may follow
the ten matched characters). -/
def dateShape (s : List Char) : Bool :=
  match s with
  | a :: b :: c :: d :: h1 :: e :: f :: h2 :: g :: h :: _ =>
    a.isDigit && b.isDigit && c.isDigit && d.isDigit && h1 == '-'
      && e.isDigit && f.isDigit && h2 == '-' && g.isDigit && h.isDigit
  | _ => false

/-- WebScraper.create_url_pattern (scraper.py lines 72-95): split both
paths on `/`, zip positionally (zip truncates to the shorter list), keep
equal segments, turn numeric pairs into the id placeholder and date
pairs into the date placeholder, everything else into `*`, and join the
parts with `/`. -/
def create_url_pattern (old_path new_path : List Char) : List Char :=
  let parts_old := splitChar '/' old_path
  let parts_new := splitChar '/' new_path
  let pattern_parts := (parts_old.zip parts_new).map (fun pq =>
    if pq.1 == pq.2 then pq.1
    else if pyIsDigit pq.1 && pyIsDigit pq.2 then ("{id}").data
    else if dateShape pq.1 && dateShape pq.2 then ("{date}").data
    else ("*").data)
  joinChar '/' pattern_parts

/-- The pattern registry: template string to stored entry (the entry
payload is irrelevant to the claims and kept abstract as a string
pair). -/
def PatternRegistry : Type := List (List Char × (List Char × List Char))

/-- WebScraper.load_url_patterns (scraper.py lines 32-41).  The
filesystem and the JSON parse are external collaborators: fileExists
models os.path.exists('url_patterns.json') and readResult the outcome of
open plus json.load, with error covering every raised exception.  A
missing file returns the empty registry, and so does any exception. -/
def load_url_patterns (fileExists : Bool)
    (readResult : Except (List Char) PatternRegistry) : PatternRegistry :=
  if fileExists then
    match readResult with
    | .ok p => p
    | .error _ => []
  else []

/-- The external fetch environment of a crawl session: each URL is
mapped to the document the browser would deliver for it. -/
def PageGraph : Type := List Char → NodeList

/-- URLs fetched by WebScraper.scrape_page(url) (scraper.py lines
188-217): exactly one driver.get(url); links inside the returned
document are never followed. -/
def scrape_page_fetches (_graph : PageGraph) (url : List Char) : List (List Char) :=
  [url]

/-- The parsed document scrape_page produces for a URL under a given
fetch environment. -/
def scrape_page_result (graph : PageGraph) (url : List Char) : NodeList :=
  scrape_page_tree url (graph url)

/-- URLs fetched by WebScraper.save_page(url) (scraper.py lines
142-186): save_page calls scrape_page once and then only writes
files. -/
def save_page_fetches (graph : PageGraph) (url : List Char) : List (List Char) :=
  scrape_page_fetches graph url

/-- main(urls) (scraper.py lines 228-251): one WebScraper and one
save_page task per command-line URL, gathered concurrently; the combined
fetch log is one fetch per list entry.  There is no visited set and no
enqueueing of links discovered in fetched pages. -/
def main_fetches (graph : PageGraph) : List (List Char) → List (List Char)
  | [] => []
  | u :: rest => save_page_fetches graph u ++ main_fetches graph rest

/-!
Structural measures and predicates on documents used by the theorems.
-/

mutual
/-- Number of elements of a node whose tag is in the given list. -/
def countTagN (ts : List (List Char)) : Node → Nat
  | .elem tag _ children => (if ts.contains tag then 1 else 0) + countTagL ts children
  | .text _ => 0

/-- Number of elements of a forest whose tag is in the given list. -/
def countTagL (ts : List (List Char)) : NodeList → Nat
  | .nil => 0
  | .cons n ns => countTagN ts n + countTagL ts ns
end

mutual
/-- No element of the node carries a style attribute. -/
def noStyleAttrN : Node → Bool
  | .elem _ attrs children =>
    attrs.all (fun kv => kv.1 != ("style").data) && noStyleAttrL children
  | .text _ => true

/-- No element of the forest carries a style attribute. -/
def noStyleAttrL : NodeList → Bool
  | .nil => true
  | .cons n ns => noStyleAttrN n && noStyleAttrL ns
end

mutual
/-- Every link attribute the proxy rewrites (href/src/action on the
listed tags) has a semicolon-free value in this node. -/
def linkTameN : Node → Bool
  | .elem tag attrs children =>
    (if proxy_tags.contains tag then
      attrs.all (fun kv =>
        if proxy_attrs.contains kv.1 then !(kv.2.contains ';') else true)
     else true) && linkTameL children
  | .text _ => true

/-- linkTameN over a forest. -/
def linkTameL : NodeList → Bool
  | .nil => true
  | .cons n ns => linkTameN n && linkTameL ns
end

/-- The attribute list of the first node of a forest (empty for a text
node or an empty forest); used to observe single-element documents. -/
def firstAttrs : NodeList → List (List Char × List Char)
  | .cons (.elem _ attrs _) _ => attrs
  | _ => []

/-- Well-formedness of the proxy origin state (scheme, target_domain) as
set by set_target on an ordinary URL: a non-empty all-ASCII scheme
starting with a letter, and a target domain free of the characters that
delimit netloc, query, fragment, params, and of the characters urlsplit
strips. -/
def originWF (scheme target : List Char) : Bool :=
  scheme != []
    && (match scheme with
        | [] => false
        | c :: _ => c.isAlpha)
    && scheme.all isSchemeChar
    && target.all (fun c =>
        c != '/' && c != '?' && c != '#' && c != ';'
          && c != '\t' && c != '\r' && c != '\n')

/-!
Concrete documents used by the counterexamples.
-/

/-- The example URL of the end-to-end scenario. -/
def page2Url : List Char := ("http://example.com/page2?x=1").data

/-- A fetched document with an anchor and an image that both reference
the example URL. -/
def claim1Doc : NodeList :=
  .cons (.elem (("a").data) [((("href").data), page2Url)] .nil)
    (.cons (.elem (("img").data) [((("src").data), page2Url)] .nil) .nil)

/-- A page whose only content is an anchor to /shared. -/
def pageWithShared : NodeList :=
  .cons (.elem (("a").data) [((("href").data), (("/shared").data))] .nil) .nil

/-- A fetch environment with two distinct pages that both link to
/shared. -/
def demoGraph : PageGraph := fun u =>
  if u == ("http://example.com/a").data || u == ("http://example.com/b").data then
    pageWithShared
  else .nil

/-- A document consisting of an anchor whose reference has an empty
path. -/
def claim2Doc : NodeList :=
  .cons (.elem (("a").data) [((("href").data), (("http://example.com").data))] .nil) .nil

/-- An inline style whose root-relative url(...) occurrence is wrapped
in single quotes. -/
def styleQuoted : List Char :=
  ("background-image:url(").data ++ [squote] ++ ("/p").data ++ [squote, ')']

/-- A document with two base elements: only the first is removed per
pass, so a second pass removes another one. -/
def twoBaseDoc : NodeList :=
  .cons (.elem (("base").data) [((("href").data), (("http://example.com/").data))] .nil)
    (.cons (.elem (("base").data) [] .nil) .nil)

/-- A document whose single anchor reference "a:b;" has a non-uses_params
scheme, so the params survive the first rewrite and are stripped by the
second. -/
def semiDoc : NodeList :=
  .cons (.elem (("a").data) [((("href").data), (("a:b;").data))] .nil) .nil

/-- A document whose inline style has nested url( occurrences, making the
textual replacement introduce a new root-relative occurrence. -/
def styleDoc : NodeList :=
  .cons (.elem (("div").data)
    [((("style").data), (("url(/p)url(/aurl(/p)").data))] .nil) .nil

/-- A well-behaved page: one base element, ordinary links, no styles. -/
def claim5WitnessDoc : NodeList :=
  .cons (.elem (("base").data) [((("href").data), (("http://example.com/").data))] .nil)
    (.cons (.elem (("a").data) [((("href").data), page2Url)] .nil)
      (.cons (.elem (("img").data) [((("src").data), (("/logo.png").data))] .nil) .nil))

/-!
Theorems.
-/

/-- C7 counterexample: create_url_pattern on the pair of paths from the
claim does not produce the template `posts/{id}/view`; splitting a
root-relative path on `/` yields a leading empty segment, which the
join keeps, so the template starts with a slash. -/
theorem claim7_counterexample :
    create_url_pattern (("/posts/123/view").data) (("/posts/456/view").data)
      ≠ ("posts/{id}/view").data := by decide

/-- C7 amended: learning from the pair ("/posts/123/view",
"/posts/456/view") produces exactly the template `/posts/{id}/view`
(with a leading slash): positionally equal segments are kept as
literals and the purely numeric position becomes the id placeholder. -/
theorem claim7_amended :
    create_url_pattern (("/posts/123/view").data) (("/posts/456/view").data)
      = ("/posts/{id}/view").data := by decide

/-- C8: loading the registry from a missing file yields the empty
registry rather than an error, and any exception while reading or
parsing the file (a corrupt or unreadable pattern file) also yields the
empty registry; both paths return normally. -/
theorem claim8_registry_fail_safe (res : Except (List Char) PatternRegistry) (e : List Char) :
    load_url_patterns false res = [] ∧ load_url_patterns true (Except.error e) = [] :=
  ⟨rfl, rfl⟩

/-- C3 counterexample: under a fetch environment in which the two pages
http://example.com/a and http://example.com/b both link to /shared, the
session over exactly those two pages fetches them once each and fetches
/shared zero times (in neither absolute nor root-relative form), not
exactly once: main maintains no visited set and never follows links. -/
theorem claim3_counterexample :
    main_fetches demoGraph [("http://example.com/a").data, ("http://example.com/b").data]
        = [("http://example.com/a").data, ("http://example.com/b").data]
      ∧ List.count (("http://example.com/shared").data)
          (main_fetches demoGraph
            [("http://example.com/a").data, ("http://example.com/b").data]) = 0
      ∧ List.count (("/shared").data)
          (main_fetches demoGraph
            [("http://example.com/a").data, ("http://example.com/b").data]) = 0 := by
  refine ⟨rfl, by decide, by decide⟩

/-- C3 amended: a crawl session fetches exactly the URLs passed on the
command line, one fetch per list entry, independently of the page graph;
a URL that is merely linked from fetched pages is never fetched, and a
URL listed twice is fetched twice. -/
theorem claim3_amended (graph : PageGraph) (urls : List (List Char)) (u : List Char) :
    List.count u (main_fetches graph urls) = List.count u urls := by
  induction urls with
  | nil => rfl
  | cons v rest ih =>
    simp only [main_fetches, save_page_fetches, scrape_page_fetches,
      List.singleton_append, List.count_cons, ih]

/-- C6 (code bug): the style rewriter's regex tolerates quotes when
extracting url(...) occurrences — it captures /p out of the quoted
occurrence — and the unquoted root-relative occurrence is rewritten, but
the textual replacement searches for the unquoted text url(/p), which
does not occur in the quoted style, so the quoted occurrence is left
completely unchanged instead of being rewritten. -/
theorem claim6_quoted_url_not_rewritten :
    findUrlMatches styleQuoted = [("/p").data]
      ∧ style_once (("http://example.com").data) styleQuoted = styleQuoted
      ∧ style_once (("http://example.com").data) (("background-image:url(/p)").data)
          = ("background-image:url(http://example.com/p)").data := by
  refine ⟨by decide, by decide, by decide⟩

theorem startsWithCS_append_left (p q s : List Char) (h : startsWithCS (p ++ q) s = true) :
    startsWithCS p s = true := by
  induction p generalizing s with
  | nil => rfl
  | cons a ps ih =>
    cases s with
    | nil => simp [startsWithCS] at h
    | cons c rest =>
      simp only [List.cons_append, startsWithCS, Bool.and_eq_true] at h ⊢
      exact ⟨h.1, ih rest h.2⟩

/-- C9: the proxy endpoint parses and rewrites exactly the bodies whose
content type starts with text/html; every other content type — the
streamed binary types as well as text/css, application/javascript and
application/json, which are re-read as text — passes through with the
body unchanged. -/
theorem claim9_only_html_rewritten {α : Type} (header : List Char) (modify : α → α) (body : α) :
    proxy_transform header modify body =
      if startsWithCS (("text/html").data) (content_type_of header) = true then modify body
      else body := by
  unfold proxy_transform
  by_cases h : startsWithCS (("text/html").data) (content_type_of header) = true
  · have htext : startsWithCS (("text/").data) (content_type_of header) = true := by
      have he : ("text/html").data = ("text/").data ++ ("html").data := by decide
      exact startsWithCS_append_left _ _ _ (he ▸ h)
    simp [h, htext]
  · simp only [Bool.not_eq_true] at h
    simp only [h, Bool.false_eq_true, if_false]
    split <;> rfl

theorem stripScripts_no_banned (l : NodeList) :
    countTagL decompose_tags (stripScriptsList l) = 0 := by
  match l with
  | .nil => rfl
  | .cons (.text s) ns =>
    simp only [stripScriptsList, countTagL, countTagN]
    rw [stripScripts_no_banned ns]
  | .cons (.elem tag attrs children) ns =>
    simp only [stripScriptsList]
    by_cases h : decompose_tags.contains tag
    · simp only [h, if_true]
      exact stripScripts_no_banned ns
    · simp only [h, if_false, countTagL, countTagN]
      rw [stripScripts_no_banned children, stripScripts_no_banned ns]
      simp [h]

/-- C10: for every fetched page, the document scrape_page returns (and
save_page therefore persists) contains no script element and no style
element: after the attribute normalisation, every script and style
subtree is decomposed before serialisation. -/
theorem claim10_no_script_style (pageUrl : List Char) (doc : NodeList) :
    countTagL decompose_tags (scrape_page_tree pageUrl doc) = 0 :=
  stripScripts_no_banned (scrapeNormList pageUrl doc)

theorem takeWhile_append_all {α : Type} (p : α → Bool) (l r : List α) (h : l.all p = true) :
    (l ++ r).takeWhile p = l ++ r.takeWhile p := by
  induction l with
  | nil => rfl
  | cons a l2 ih =>
    simp only [List.all_cons, Bool.and_eq_true] at h
    simp only [List.cons_append, List.takeWhile_cons, h.1, if_true]
    rw [ih h.2]

theorem dropWhile_append_all {α : Type} (p : α → Bool) (l r : List α) (h : l.all p = true) :
    (l ++ r).dropWhile p = r.dropWhile p := by
  induction l with
  | nil => rfl
  | cons a l2 ih =>
    simp only [List.all_cons, Bool.and_eq_true] at h
    simp only [List.cons_append, List.dropWhile_cons, h.1, if_true]
    exact ih h.2

theorem urlparse_netloc (d u : List Char) : (urlparse d u).netloc = (urlsplit d u).netloc := by
  unfold urlparse
  dsimp only
  split <;> rfl

theorem urlparse_scheme (d u : List Char) : (urlparse d u).scheme = (urlsplit d u).scheme := by
  unfold urlparse
  dsimp only
  split <;> rfl

theorem urlparse_query (d u : List Char) : (urlparse d u).query = (urlsplit d u).query := by
  unfold urlparse
  dsimp only
  split <;> rfl

theorem urlsplit_netloc_single_slash (d t : List Char)
    (hclean : ('/' :: t).all keptByUnsafeRemoval = true)
    (hh : startsWithCS (("/").data) t = false) :
    (urlsplit d ('/' :: t)).netloc = [] := by
  unfold urlsplit
  dsimp only
  have hf : ('/' :: t).filter keptByUnsafeRemoval = '/' :: t :=
    List.filter_eq_self.mpr (fun a ha => List.all_eq_true.mp hclean a ha)
  rw [hf]
  have hd : ('/' :: t).dropWhile isC0OrSpace = '/' :: t := by
    rw [List.dropWhile_cons]
    simp [isC0OrSpace]
  rw [hd]
  have ht : ('/' :: t).takeWhile notColon = '/' :: t.takeWhile notColon := by
    rw [List.takeWhile_cons]
    simp [notColon]
  rw [ht]
  have hOK : ((('/' :: t.takeWhile notColon).length < ('/' :: t).length
      && (match '/' :: t.takeWhile notColon with
          | [] => false
          | c :: _ => c.isAlpha))
      && ('/' :: t.takeWhile notColon).all isSchemeChar) = false := by
    simp
  rw [hOK]
  simp only [Bool.false_eq_true, if_false]
  have hss : startsWithCS (("//").data) ('/' :: t) = false := by
    have e2 : ("//").data = ['/', '/'] := rfl
    have e1 : ("/").data = ['/'] := rfl
    rw [e2]
    simp only [startsWithCS]
    rw [e1] at hh
    simp [hh]
  rw [hss]
  simp

/-- Modelled from the spec: "the URL's host" — for a protocol-relative
reference, the host it names under the session scheme, otherwise the
parsed netloc of the reference itself.  This is the spec-worded
definition against which is_same_domain is compared. -/
def spec_url_host (scheme url : List Char) : List Char :=
  (urlparse [] (if startsWithCS (("//").data) url then scheme ++ ':' :: url else url)).netloc

/-- C4 counterexample: is_same_domain is true, not false, on a data: URL
(its parsed host is empty, which the general host rule maps to true);
and the empty reference is false although its host is empty, so the
claimed iff also needs a non-emptiness guard. -/
theorem claim4_counterexample :
    is_same_domain (("http").data) (("example.com").data)
        (("data:image/png;base64,AAAA").data) = true
      ∧ is_same_domain (("http").data) (("example.com").data) [] = false := by
  refine ⟨by decide, by decide⟩

/-- C4 amended: for an origin set from an ordinary URL and references
free of the tab/CR/LF characters urlsplit deletes, is_same_domain is
true exactly when the reference is non-empty and its host (spec_url_host)
equals the target domain or is empty; root-relative references have an
empty host and data: URLs without a `//` also have an empty host, so
both yield true. -/
theorem claim4_amended (scheme target url : List Char)
    (hwf : originWF scheme target = true)
    (hclean : url.all keptByUnsafeRemoval = true) :
    is_same_domain scheme target url =
      (url != [] && (spec_url_host scheme url == target || spec_url_host scheme url == [])) := by
  cases url with
  | nil => simp [is_same_domain]
  | cons c rest =>
    obtain ⟨s0, ss, hs⟩ : ∃ s0 ss, scheme = s0 :: ss ∧ s0.isAlpha = true := by
      simp only [originWF, Bool.and_eq_true] at hwf
      cases scheme with
      | nil => simp at hwf
      | cons s0 ss => exact ⟨s0, ss, rfl, hwf.1.1.2⟩
    obtain ⟨hs1, hs2⟩ := hs
    unfold is_same_domain spec_url_host
    dsimp only
    by_cases hpp : startsWithCS (("//").data) (c :: rest) = true
    · rw [hpp]
      simp only [if_true]
      have hns : startsWithCS (("/").data) (scheme ++ ':' :: c :: rest) = false := by
        rw [hs1]
        have e1 : ("/").data = ['/'] := rfl
        rw [e1]
        simp only [List.cons_append, startsWithCS]
        have : ('/' == s0) = false := by
          cases h39 : ('/' == s0) with
          | false => rfl
          | true =>
            have : s0 = '/' := (beq_iff_eq.mp h39).symm
            rw [this] at hs2
            simp [Char.isAlpha, Char.isUpper, Char.isLower] at hs2
        simp [this]
      rw [hns]
      simp
    · simp only [hpp, Bool.false_eq_true, if_false]
      by_cases hps : startsWithCS (("/").data) (c :: rest) = true
      · have hc : c = '/' := by
          have e1 : ("/").data = ['/'] := rfl
          rw [e1] at hps
          simp only [startsWithCS, Bool.and_eq_true] at hps
          exact (beq_iff_eq.mp hps.1).symm
        subst hc
        have hrest : startsWithCS (("/").data) rest = false := by
          have e2 : ("//").data = ['/', '/'] := rfl
          rw [e2] at hpp
          simp only [startsWithCS, beq_self_eq_true, Bool.true_and] at hpp
          cases rest with
          | nil => rfl
          | cons r rs =>
            simp only [startsWithCS] at hpp ⊢
            simpa using hpp
        rw [hps]
        simp only [if_true]
        rw [urlparse_netloc, urlsplit_netloc_single_slash [] rest hclean hrest]
        simp
      · rw [show (("/").data = ['/']) from rfl] at hps
        simp only [Bool.not_eq_true] at hps
        simp [hps]

/-- Witness for claim4_amended at the origin http://example.com and the
root-relative reference of the claim. -/
theorem claim4_amended_witness :
    originWF (("http").data) (("example.com").data) = true
      ∧ (("/relative/path").data).all keptByUnsafeRemoval = true
      ∧ is_same_domain (("http").data) (("example.com").data) (("/relative/path").data)
          = ((("/relative/path").data != [])
              && (spec_url_host (("http").data) (("/relative/path").data) == ("example.com").data
                  || spec_url_host (("http").data) (("/relative/path").data) == [])) :=
  ⟨by decide, by decide, claim4_amended _ _ _ (by decide) (by decide)⟩

/-- C2 counterexample: a same-origin reference with an empty path
(href="http://example.com") is rewritten to "/", not to routePrefix +
path = "" — the code emits "/" plus the lstripped path, which differs
from path itself whenever the path is empty (or begins with a double
slash). -/
theorem claim2_counterexample :
    modify_content_tree (("http").data) (("example.com").data) claim2Doc
        = .cons (.elem (("a").data) [((("href").data), (("/").data))] .nil) .nil
      ∧ ("/").data ≠ ([] : List Char) := by
  refine ⟨rfl, by decide⟩

/-- C2 amended: for every same-origin resource reference whose resolved
path starts with a single slash, the rewritten attribute value is
exactly the resolved path, with `?query` appended exactly when the URL
has a non-empty query string (the code actually emits "/" plus the
lstripped path-and-query, which collapses to routePrefix + path only
under that proviso; an empty or double-slash path yields "/" plus the
stripped remainder instead). -/
theorem claim2_amended (scheme target v rest : List Char)
    (h1 : startsWithCS (("data:").data) v = false)
    (h2 : startsWithCS (("javascript:").data) v = false)
    (hso : is_same_domain scheme target (proxy_resolve scheme target v) = true)
    (hpath : (urlparse [] (proxy_resolve scheme target v)).path = '/' :: rest)
    (hrest : startsWithCS (("/").data) rest = false) :
    rewrite_url scheme target v =
      (urlparse [] (proxy_resolve scheme target v)).path
        ++ (if (urlparse [] (proxy_resolve scheme target v)).query != []
            then '?' :: (urlparse [] (proxy_resolve scheme target v)).query else []) := by
  have hds : ∀ (X : List Char), (X = [] ∨ X.head? = some '?') →
      List.dropWhile (fun c => c == '/') (rest ++ X) = rest ++ X := by
    intro X hX
    cases rest with
    | nil =>
      rcases hX with h | h
      · subst h; rfl
      · cases X with
        | nil => rfl
        | cons x xs =>
          simp only [Option.some.injEq, List.head?] at h
          subst h
          simp [List.dropWhile_cons]
    | cons r rs =>
      have hr : (r == '/') = false := by
        rw [show (("/").data = ['/']) from rfl] at hrest
        simp only [startsWithCS, Bool.and_true] at hrest
        cases h : (r == '/') with
        | false => rfl
        | true =>
          have : r = '/' := beq_iff_eq.mp h
          subst this
          exact absurd hrest (by decide)
      simp [List.cons_append, List.dropWhile_cons, hr]
  unfold rewrite_url
  dsimp only
  rw [h1, h2]
  simp only [Bool.false_eq_true, if_false]
  rw [hso]
  simp only [if_true]
  by_cases hq : (urlparse [] (proxy_resolve scheme target v)).query != []
  · simp only [hq, if_true]
    rw [hpath]
    simp only [List.cons_append, List.dropWhile_cons, beq_self_eq_true, if_true]
    rw [hds ('?' :: (urlparse [] (proxy_resolve scheme target v)).query) (Or.inr rfl)]
  · simp only [hq, if_false]
    rw [hpath]
    have h0 := hds [] (Or.inl rfl)
    simp only [List.append_nil] at h0 ⊢
    simp [List.dropWhile_cons, h0]

/-- Witness for claim2_amended: the end-to-end example — origin
example.com, reference http://example.com/page2?x=1 — rewrites to
/page2?x=1. -/
theorem claim2_amended_witness :
    startsWithCS (("data:").data) page2Url = false
      ∧ startsWithCS (("javascript:").data) page2Url = false
      ∧ is_same_domain (("http").data) (("example.com").data)
          (proxy_resolve (("http").data) (("example.com").data) page2Url) = true
      ∧ (urlparse [] (proxy_resolve (("http").data) (("example.com").data) page2Url)).path
          = '/' :: ("page2").data
      ∧ rewrite_url (("http").data) (("example.com").data) page2Url
          = (urlparse [] (proxy_resolve (("http").data) (("example.com").data) page2Url)).path
            ++ (if (urlparse [] (proxy_resolve (("http").data) (("example.com").data) page2Url)).query
                  != []
                then '?' :: (urlparse []
                    (proxy_resolve (("http").data) (("example.com").data) page2Url)).query
                else []) :=
  ⟨by decide, by decide, by decide, by decide,
    claim2_amended (("http").data) (("example.com").data) page2Url (("page2").data)
      (by decide) (by decide) (by decide) (by decide) (by decide)⟩

theorem alpha_not_c0 (c : Char) (h : c.isAlpha = true) : isC0OrSpace c = false := by
  simp only [Char.isAlpha, Char.isUpper, Char.isLower, Bool.or_eq_true, Bool.and_eq_true,
    decide_eq_true_eq] at h
  simp only [isC0OrSpace, decide_eq_false_iff_not]
  intro hle
  simp only [Char.toNat] at hle
  rcases h with ⟨h1, h2⟩ | ⟨h1, h2⟩
  · have h4 : (65 : UInt32).toNat ≤ c.val.toNat := h1
    rw [show ((65 : UInt32).toNat = 65) from rfl] at h4
    omega
  · have h4 : (97 : UInt32).toNat ≤ c.val.toNat := h1
    rw [show ((97 : UInt32).toNat = 97) from rfl] at h4
    omega

theorem schemeChar_kept (c : Char) (h : isSchemeChar c = true) :
    keptByUnsafeRemoval c = true := by
  cases hk : keptByUnsafeRemoval c with
  | true => rfl
  | false =>
    have hc : c = '\t' ∨ c = '\r' ∨ c = '\n' := by
      by_contra hcon
      push_neg at hcon
      simp [keptByUnsafeRemoval, bne_iff_ne, hcon.1, hcon.2.1, hcon.2.2] at hk
    rcases hc with rfl | rfl | rfl <;> exact absurd h (by decide)

theorem schemeChar_notColon (c : Char) (h : isSchemeChar c = true) : notColon c = true := by
  cases hk : notColon c with
  | true => rfl
  | false =>
    have hc : c = ':' := by
      by_contra hcon
      simp [notColon, bne_iff_ne, hcon] at hk
    subst hc
    exact absurd h (by decide)

theorem urlsplit_absolute (d sch host tail : List Char)
    (hs0 : sch ≠ [])
    (hs1 : (match sch with | [] => false | c :: _ => c.isAlpha) = true)
    (hs2 : sch.all isSchemeChar = true)
    (hh1 : host.all notNetlocEnd = true)
    (hh2 : host.all keptByUnsafeRemoval = true)
    (ht1 : tail.all keptByUnsafeRemoval = true)
    (ht2 : ∀ c cs, tail = c :: cs → notNetlocEnd c = false) :
    urlsplit d (sch ++ ':' :: '/' :: '/' :: (host ++ tail)) =
      ⟨sch.map Char.toLower, host,
        (splitTail '?' (splitTail '#' tail).1).1,
        (splitTail '?' (splitTail '#' tail).1).2,
        (splitTail '#' tail).2⟩ := by
  obtain ⟨s0, ss, rfl⟩ : ∃ s0 ss, sch = s0 :: ss := by
    cases sch with
    | nil => exact absurd rfl hs0
    | cons s0 ss => exact ⟨s0, ss, rfl⟩
  simp only at hs1
  unfold urlsplit
  dsimp only
  have hkall : ((s0 :: ss) ++ ':' :: '/' :: '/' :: (host ++ tail)).all keptByUnsafeRemoval
      = true := by
    apply List.all_eq_true.mpr
    intro c hc
    rcases List.mem_append.mp hc with hc1 | hc2
    · exact schemeChar_kept c (List.all_eq_true.mp hs2 c hc1)
    · simp only [List.mem_cons, List.mem_append] at hc2
      rcases hc2 with rfl | rfl | rfl | hc3 | hc4
      · decide
      · decide
      · decide
      · exact List.all_eq_true.mp hh2 c hc3
      · exact List.all_eq_true.mp ht1 c hc4
  rw [List.filter_eq_self.mpr (fun a ha => List.all_eq_true.mp hkall a ha)]
  have hc0 : isC0OrSpace s0 = false := by
    apply alpha_not_c0
    exact hs1
  rw [show ((s0 :: ss) ++ ':' :: '/' :: '/' :: (host ++ tail)
      = s0 :: (ss ++ ':' :: '/' :: '/' :: (host ++ tail))) from by simp]
  rw [List.dropWhile_cons]
  simp only [hc0, Bool.false_eq_true, if_false]
  have hpre : (s0 :: (ss ++ ':' :: '/' :: '/' :: (host ++ tail))).takeWhile notColon
      = s0 :: ss := by
    rw [show (s0 :: (ss ++ ':' :: '/' :: '/' :: (host ++ tail))
        = (s0 :: ss) ++ ':' :: '/' :: '/' :: (host ++ tail)) from by simp]
    rw [takeWhile_append_all notColon (s0 :: ss) _
      (List.all_eq_true.mpr (fun c hc => schemeChar_notColon c (List.all_eq_true.mp hs2 c hc)))]
    rw [List.takeWhile_cons]
    simp [notColon]
  rw [hpre]
  have hOK : ((decide ((s0 :: ss).length
        < (s0 :: (ss ++ ':' :: '/' :: '/' :: (host ++ tail))).length)
      && (match s0 :: ss with | [] => false | c :: _ => c.isAlpha))
      && (s0 :: ss).all isSchemeChar) = true := by
    simp only [List.length_cons, List.length_append, hs2, Bool.and_true]
    simp only [hs1, Bool.and_true]
    simp only [decide_eq_true_eq]
    omega
  rw [hOK]
  simp only [if_true]
  have hdrop : (s0 :: (ss ++ ':' :: '/' :: '/' :: (host ++ tail))).drop ((s0 :: ss).length + 1)
      = '/' :: '/' :: (host ++ tail) := by
    rw [show (s0 :: (ss ++ ':' :: '/' :: '/' :: (host ++ tail))
        = ((s0 :: ss) ++ [':']) ++ ('/' :: '/' :: (host ++ tail))) from by simp]
    rw [show ((s0 :: ss).length + 1 = ((s0 :: ss) ++ [':']).length) from by simp]
    exact List.drop_left _ _
  rw [hdrop]
  have hss2 : startsWithCS (("//").data) ('/' :: '/' :: (host ++ tail)) = true := rfl
  rw [hss2]
  simp only [if_true, List.drop_succ_cons, List.drop_zero]
  have htake : (host ++ tail).takeWhile notNetlocEnd = host := by
    rw [takeWhile_append_all notNetlocEnd host tail hh1]
    cases tail with
    | nil => simp
    | cons t ts =>
      rw [List.takeWhile_cons]
      simp [ht2 t ts rfl]
  have hdrop2 : (host ++ tail).dropWhile notNetlocEnd = tail := by
    rw [dropWhile_append_all notNetlocEnd host tail hh1]
    cases tail with
    | nil => rfl
    | cons t ts =>
      rw [List.dropWhile_cons]
      simp [ht2 t ts rfl]
  rw [htake, hdrop2]

theorem splitOnceChar_first (c : Char) (l r : List Char)
    (hl : l.all (fun a => a != c) = true) :
    splitOnceChar c (l ++ c :: r) = some (l, r) := by
  unfold splitOnceChar
  rw [dropWhile_append_all _ l _ hl, takeWhile_append_all _ l _ hl]
  rw [List.dropWhile_cons, List.takeWhile_cons]
  simp

theorem splitOnceChar_absent (c : Char) (l : List Char)
    (hl : l.all (fun a => a != c) = true) :
    splitOnceChar c l = none := by
  unfold splitOnceChar
  have h0 := dropWhile_append_all (fun a => a != c) l [] hl
  simp only [List.append_nil, List.dropWhile_nil] at h0
  rw [h0]

theorem urlparse_absolute_pq (d sch host p q : List Char)
    (hs0 : sch ≠ [])
    (hs1 : (match sch with | [] => false | c :: _ => c.isAlpha) = true)
    (hs2 : sch.all isSchemeChar = true)
    (hh1 : host.all notNetlocEnd = true)
    (hh2 : host.all keptByUnsafeRemoval = true)
    (hp0 : startsWithCS (("/").data) p = true)
    (hp1 : p.all (fun c => c != '?' && c != '#' && c != ';') = true)
    (hp2 : p.all keptByUnsafeRemoval = true)
    (hq1 : q.all (fun c => c != '#') = true)
    (hq2 : q.all keptByUnsafeRemoval = true) :
    urlparse d (sch ++ ':' :: '/' :: '/' :: (host ++ (p ++ '?' :: q))) =
      ⟨sch.map Char.toLower, host, p, [], q, []⟩ := by
  have hphead : ∃ ps, p = '/' :: ps := by
    cases p with
    | nil => exact absurd hp0 (by decide)
    | cons a ps =>
      rw [show (("/").data = ['/']) from rfl] at hp0
      simp only [startsWithCS, Bool.and_true] at hp0
      exact ⟨ps, by rw [beq_iff_eq.mp hp0]⟩
  obtain ⟨ps, rfl⟩ := hphead
  have hsplit := urlsplit_absolute d sch host (('/' :: ps) ++ '?' :: q) hs0 hs1 hs2 hh1 hh2
    (by
      simp only [List.all_append, List.all_cons, Bool.and_eq_true]
      simp only [List.all_cons, Bool.and_eq_true] at hp2
      exact ⟨⟨hp2.1, hp2.2⟩, by decide, hq2⟩)
    (by
      intro c cs h
      simp only [List.cons_append] at h
      injection h with h1 h2
      rw [← h1]
      decide)
  have hnofrag : splitOnceChar '#' ((('/' :: ps) ++ '?' :: q)) = none := by
    apply splitOnceChar_absent
    simp only [List.all_append, List.all_cons, Bool.and_eq_true]
    have hps : (('/' :: ps)).all (fun c => c != '#') = true := by
      apply List.all_eq_true.mpr
      intro a ha
      have := List.all_eq_true.mp hp1 a ha
      simp only [Bool.and_eq_true] at this
      exact this.1.2
    simp only [List.all_cons, Bool.and_eq_true] at hps
    exact ⟨hps, by decide, hq1⟩
  have hq : splitOnceChar '?' (('/' :: ps) ++ '?' :: q) = some ('/' :: ps, q) := by
    apply splitOnceChar_first
    apply List.all_eq_true.mpr
    intro a ha
    have := List.all_eq_true.mp hp1 a ha
    simp only [Bool.and_eq_true] at this
    exact this.1.1
  simp only [splitTail, hnofrag, hq] at hsplit
  unfold urlparse
  rw [hsplit]
  dsimp only
  have hnosemi : (('/' :: ps)).contains ';' = false := by
    cases hcon : (('/' :: ps)).contains ';' with
    | false => rfl
    | true =>
      have := List.all_eq_true.mp hp1 ';' (List.mem_of_elem_eq_true hcon)
      exact absurd this (by decide)
  rw [hnosemi]
  simp

theorem urlparse_absolute_p (d sch host p : List Char)
    (hs0 : sch ≠ [])
    (hs1 : (match sch with | [] => false | c :: _ => c.isAlpha) = true)
    (hs2 : sch.all isSchemeChar = true)
    (hh1 : host.all notNetlocEnd = true)
    (hh2 : host.all keptByUnsafeRemoval = true)
    (hp0 : ∀ c cs, p = c :: cs → notNetlocEnd c = false)
    (hp1 : p.all (fun c => c != '?' && c != '#' && c != ';') = true)
    (hp2 : p.all keptByUnsafeRemoval = true) :
    urlparse d (sch ++ ':' :: '/' :: '/' :: (host ++ p)) =
      ⟨sch.map Char.toLower, host, p, [], [], []⟩ := by
  have hsplit := urlsplit_absolute d sch host p hs0 hs1 hs2 hh1 hh2 hp2 hp0
  have hnofrag : splitOnceChar '#' p = none := by
    apply splitOnceChar_absent
    apply List.all_eq_true.mpr
    intro a ha
    have := List.all_eq_true.mp hp1 a ha
    simp only [Bool.and_eq_true] at this
    exact this.1.2
  have hnoq : splitOnceChar '?' p = none := by
    apply splitOnceChar_absent
    apply List.all_eq_true.mpr
    intro a ha
    have := List.all_eq_true.mp hp1 a ha
    simp only [Bool.and_eq_true] at this
    exact this.1.1
  simp only [splitTail, hnofrag, hnoq] at hsplit
  unfold urlparse
  rw [hsplit]
  dsimp only
  have hnosemi : p.contains ';' = false := by
    cases hcon : p.contains ';' with
    | false => rfl
    | true =>
      have := List.all_eq_true.mp hp1 ';' (List.mem_of_elem_eq_true hcon)
      exact absurd this (by decide)
  rw [hnosemi]
  simp

theorem urljoin_absolute_fixed (host p q : List Char)
    (hh0 : host ≠ [])
    (hh1 : host.all notNetlocEnd = true)
    (hh2 : host.all keptByUnsafeRemoval = true)
    (hp0 : startsWithCS (("/").data) p = true)
    (hp1 : p.all (fun c => c != '?' && c != '#' && c != ';') = true)
    (hp2 : p.all keptByUnsafeRemoval = true)
    (hq0 : q ≠ [])
    (hq1 : q.all (fun c => c != '#') = true)
    (hq2 : q.all keptByUnsafeRemoval = true) :
    urljoin (("http://").data ++ host) (("http://").data ++ host ++ p ++ '?' :: q)
      = ("http://").data ++ host ++ p ++ '?' :: q := by
  obtain ⟨ps, rfl⟩ : ∃ ps, p = '/' :: ps := by
    cases p with
    | nil => exact absurd hp0 (by decide)
    | cons a ps =>
      rw [show (("/").data = ['/']) from rfl] at hp0
      simp only [startsWithCS, Bool.and_true] at hp0
      exact ⟨ps, by rw [beq_iff_eq.mp hp0]⟩
  have e1 : urlparse [] (("http://").data ++ host)
      = ⟨("http").data, host, [], [], [], []⟩ := by
    rw [show ((("http://").data ++ host)
        = ("http").data ++ ':' :: '/' :: '/' :: (host ++ [])) from by simp]
    rw [urlparse_absolute_p [] (("http").data) host [] (by decide) (by decide) (by decide)
      hh1 hh2 (fun c cs h => nomatch h) (by decide) (by decide)]
    rfl
  have e2 : urlparse (("http").data) (("http://").data ++ host ++ ('/' :: ps) ++ '?' :: q)
      = ⟨("http").data, host, '/' :: ps, [], q, []⟩ := by
    rw [show ((("http://").data ++ host ++ ('/' :: ps) ++ '?' :: q)
        = ("http").data ++ ':' :: '/' :: '/' :: (host ++ (('/' :: ps) ++ '?' :: q))) from by simp]
    rw [urlparse_absolute_pq (("http").data) (("http").data) host ('/' :: ps) q (by decide)
      (by decide) (by decide) hh1 hh2 hp0 hp1 hp2 hq1 hq2]
    rfl
  unfold urljoin
  rw [if_neg (show ¬((("http://").data ++ host) = []) from by simp)]
  rw [if_neg (show ¬((("http://").data ++ host ++ ('/' :: ps) ++ '?' :: q) = []) from by simp)]
  dsimp only
  rw [e1]
  dsimp only
  rw [e2]
  dsimp only
  rw [if_neg (show ¬((("http").data != ("http").data
      || !(uses_relative.contains (("http").data))) = true) from by decide)]
  have hnl : (uses_netloc.contains (("http").data) && (host != [])) = true := by
    have hh : (host != []) = true := by simp [bne_iff_ne, hh0]
    rw [hh]
    decide
  rw [if_pos hnl]
  unfold urlunparse urlunsplit
  have hqb : (q != []) = true := by simp [bne_iff_ne, hq0]
  have hhb : (host != []) = true := by simp [bne_iff_ne, hh0]
  simp +decide [hqb, hhb, startsWithCS, List.append_assoc]

/-- C1 counterexample: under scrape_page, neither reference of a fetched
document on origin example.com is rewritten to the root-relative mirror
path /page2 — the anchor is not touched at all (anchors are not in the
normalised tag list), the image reference stays the absolute URL with
its query string, and the document is returned verbatim. -/
theorem claim1_counterexample :
    scrape_page_tree (("http://example.com").data) claim1Doc = claim1Doc
      ∧ page2Url ≠ ("/page2").data := by
  refine ⟨rfl, by decide⟩

/-- C1 amended: scrape_page resolves src/href/data-src attributes of the
listed resource tags to absolute URLs via urljoin against the fetched
page URL and preserves the query string; an absolute same-origin
reference is kept verbatim (no mirror path is ever produced, and
anchors are left untouched). -/
theorem claim1_amended (host p q : List Char)
    (hh0 : host ≠ [])
    (hh1 : host.all notNetlocEnd = true)
    (hh2 : host.all keptByUnsafeRemoval = true)
    (hp0 : startsWithCS (("/").data) p = true)
    (hp1 : p.all (fun c => c != '?' && c != '#' && c != ';') = true)
    (hp2 : p.all keptByUnsafeRemoval = true)
    (hq0 : q ≠ [])
    (hq1 : q.all (fun c => c != '#') = true)
    (hq2 : q.all keptByUnsafeRemoval = true) :
    scrape_page_tree (("http://").data ++ host)
      (.cons (.elem (("img").data)
        [((("src").data), ("http://").data ++ host ++ p ++ '?' :: q)] .nil) .nil)
      = .cons (.elem (("img").data)
        [((("src").data), ("http://").data ++ host ++ p ++ '?' :: q)] .nil) .nil := by
  unfold scrape_page_tree scrapeNormList scrapeNormNode
  have hne : ((("http://").data ++ host ++ p ++ '?' :: q) != []) = true := by
    simp [bne_iff_ne]
  have htag : scrape_tags.contains (("img").data) = true := by decide
  have hattr : scrape_attrs.contains (("src").data) = true := by decide
  simp only [htag, if_true, List.map_cons, List.map_nil, hattr, hne, Bool.and_true,
    Bool.true_and, if_true]
  rw [urljoin_absolute_fixed host p q hh0 hh1 hh2 hp0 hp1 hp2 hq0 hq1 hq2]
  rfl

/-- Witness for claim1_amended at the end-to-end example: the image
reference http://example.com/page2?x=1 on the page http://example.com is
preserved exactly (query included). -/
theorem claim1_amended_witness :
    (("example.com").data ≠ [])
      ∧ scrape_page_tree (("http://").data ++ ("example.com").data)
          (.cons (.elem (("img").data)
            [((("src").data),
              ("http://").data ++ ("example.com").data ++ ("/page2").data ++ '?' :: ("x=1").data)]
            .nil) .nil)
        = .cons (.elem (("img").data)
            [((("src").data),
              ("http://").data ++ ("example.com").data ++ ("/page2").data ++ '?' :: ("x=1").data)]
            .nil) .nil :=
  ⟨by decide,
    claim1_amended (("example.com").data) (("/page2").data) (("x=1").data)
      (by decide) (by decide) (by decide) (by decide) (by decide) (by decide)
      (by decide) (by decide) (by decide)⟩

theorem mem_of_mem_takeWhileCS {α : Type} (p : α → Bool) (l : List α) (x : α)
    (h : x ∈ l.takeWhile p) : x ∈ l :=
  (List.takeWhile_sublist p).subset h

theorem mem_of_mem_dropWhileCS {α : Type} (p : α → Bool) (l : List α) (x : α)
    (h : x ∈ l.dropWhile p) : x ∈ l :=
  (List.dropWhile_sublist p).subset h

theorem dropWhile_head_false {α : Type} (p : α → Bool) :
    ∀ (l : List α) (y : α) (rest : List α), l.dropWhile p = y :: rest → p y = false := by
  intro l
  induction l with
  | nil => intro y rest h; simp at h
  | cons a l2 ih =>
    intro y rest h
    rw [List.dropWhile_cons] at h
    by_cases hp : p a = true
    · rw [if_pos hp] at h
      exact ih y rest h
    · rw [if_neg hp] at h
      injection h with h1 h2
      rw [← h1]
      exact Bool.not_eq_true _ ▸ hp

theorem splitOnceChar_parts (c : Char) (s a b : List Char)
    (h : splitOnceChar c s = some (a, b)) :
    s = a ++ c :: b ∧ a.all (fun x => x != c) = true := by
  unfold splitOnceChar at h
  rcases hd : s.dropWhile (fun x => x != c) with - | ⟨y, rest⟩
  · rw [hd] at h
    simp at h
  · rw [hd] at h
    simp only [Option.some.injEq, Prod.mk.injEq] at h
    obtain ⟨ha, hb⟩ := h
    have hy : (fun x => x != c) y = false := dropWhile_head_false _ s y rest hd
    have hy2 : y = c := by simpa [bne_iff_ne] using hy
    rw [hy2] at hd
    constructor
    · rw [← ha, ← hb]
      conv_lhs => rw [← List.takeWhile_append_dropWhile (p := fun x => x != c) (l := s)]
      rw [hd]
    · rw [← ha]
      exact List.all_takeWhile

theorem splitOnceChar_absent_all (c : Char) (s : List Char)
    (h : splitOnceChar c s = none) : s.all (fun x => x != c) = true := by
  unfold splitOnceChar at h
  rcases hd : s.dropWhile (fun x => x != c) with - | ⟨y, rest⟩
  · have := List.takeWhile_append_dropWhile (p := fun x => x != c) (l := s)
    rw [hd, List.append_nil] at this
    rw [← this]
    exact List.all_takeWhile
  · rw [hd] at h
    simp at h

theorem splitTail_fst_all (c : Char) (s : List Char) :
    (splitTail c s).1.all (fun x => x != c) = true := by
  unfold splitTail
  rcases hs : splitOnceChar c s with - | ⟨a, b⟩
  · exact splitOnceChar_absent_all c s hs
  · exact (splitOnceChar_parts c s a b hs).2

theorem splitTail_fst_mem (c : Char) (s : List Char) (x : Char)
    (hx : x ∈ (splitTail c s).1) : x ∈ s := by
  unfold splitTail at hx
  rcases hs : splitOnceChar c s with - | ⟨a, b⟩
  · rw [hs] at hx
    exact hx
  · rw [hs] at hx
    obtain ⟨he, -⟩ := splitOnceChar_parts c s a b hs
    rw [he]
    simp only [List.mem_append]
    exact Or.inl hx

theorem splitTail_snd_mem (c : Char) (s : List Char) (x : Char)
    (hx : x ∈ (splitTail c s).2) : x ∈ s := by
  unfold splitTail at hx
  rcases hs : splitOnceChar c s with - | ⟨a, b⟩
  · rw [hs] at hx
    simp at hx
  · rw [hs] at hx
    obtain ⟨he, -⟩ := splitOnceChar_parts c s a b hs
    rw [he]
    simp only [List.mem_append, List.mem_cons]
    exact Or.inr (Or.inr hx)

theorem charOfNat_toNat_mid (n : Nat) (h1 : 97 ≤ n) (h2 : n ≤ 122) :
    (Char.ofNat n).toNat = n := by
  have hv : n.isValidChar := Or.inl (by omega)
  rw [Char.ofNat, dif_pos hv]
  simp [Char.ofNatAux, Char.toNat, UInt32.ofNat', UInt32.toNat, BitVec.ofNatLt]

theorem toLower_eq_semi (c : Char) (h : Char.toLower c = ';') : c = ';' := by
  unfold Char.toLower at h
  dsimp only at h
  split at h
  · rename_i hr
    have h2 := congrArg Char.toNat h
    rw [charOfNat_toNat_mid (c.toNat + 32) (by omega) (by omega)] at h2
    have h3 : (';').toNat = 59 := rfl
    rw [h3] at h2
    omega
  · exact h

theorem urlsplit_stages (d u : List Char) :
    ∃ R2, (∀ x, x ∈ R2 → x ∈ u ∧ keptByUnsafeRemoval x = true)
      ∧ (urlsplit d u).path = (splitTail '?' (splitTail '#' R2).1).1
      ∧ (urlsplit d u).query = (splitTail '?' (splitTail '#' R2).1).2
      ∧ (urlsplit d u).fragment = (splitTail '#' R2).2
      ∧ (∀ x, x ∈ (urlsplit d u).netloc → x ∈ u ∧ keptByUnsafeRemoval x = true)
      ∧ ((urlsplit d u).scheme = d ∨ (urlsplit d u).scheme.contains ';' = false) := by
  unfold urlsplit
  dsimp only
  have hmemF : ∀ y, y ∈ u.filter keptByUnsafeRemoval → y ∈ u ∧ keptByUnsafeRemoval y = true :=
    fun y hy => ⟨List.mem_of_mem_filter hy, List.of_mem_filter hy⟩
  refine ⟨_, ?_, rfl, rfl, rfl, ?_, ?_⟩
  · intro x hx
    split at hx <;> (try split at hx) <;>
      (apply hmemF
       first
        | exact mem_of_mem_dropWhileCS _ _ _
            (List.mem_of_mem_drop (List.mem_of_mem_drop (mem_of_mem_dropWhileCS _ _ _ hx)))
        | exact mem_of_mem_dropWhileCS _ _ _
            (List.mem_of_mem_drop (mem_of_mem_dropWhileCS _ _ _ hx))
        | exact mem_of_mem_dropWhileCS _ _ _ (List.mem_of_mem_drop hx)
        | exact mem_of_mem_dropWhileCS _ _ _ hx)
  · intro x hx
    split at hx <;> (try split at hx) <;>
      first
        | exact absurd hx (List.not_mem_nil _)
        | (apply hmemF
           first
            | exact mem_of_mem_dropWhileCS _ _ _
                (List.mem_of_mem_drop (mem_of_mem_takeWhileCS _ _ _ hx))
            | exact mem_of_mem_dropWhileCS _ _ _
                (List.mem_of_mem_drop (List.mem_of_mem_drop (mem_of_mem_takeWhileCS _ _ _ hx))))
  · split
    · rename_i hcond
      right
      simp only [Bool.and_eq_true] at hcond
      have hall := hcond.2
      cases hc : List.contains (List.map Char.toLower (((u.filter
          keptByUnsafeRemoval).dropWhile isC0OrSpace).takeWhile notColon)) ';' with
      | false => rfl
      | true =>
        have hmem := List.mem_of_elem_eq_true hc
        simp only [List.mem_map] at hmem
        obtain ⟨c, hcmem, hceq⟩ := hmem
        have hcs : c = ';' := toLower_eq_semi c hceq
        subst hcs
        have := List.all_eq_true.mp hall ';' hcmem
        exact absurd this (by decide)
    · left
      rfl

theorem urlsplit_pq_facts (d u : List Char) :
    ((urlsplit d u).path.all (fun c => c != '?') = true)
      ∧ ((urlsplit d u).path.all (fun c => c != '#') = true)
      ∧ ((urlsplit d u).query.all (fun c => c != '#') = true)
      ∧ (∀ x, (x ∈ (urlsplit d u).path ∨ x ∈ (urlsplit d u).query) →
          x ∈ u ∧ keptByUnsafeRemoval x = true) := by
  obtain ⟨R2, hmem, hp, hq, -, -, -⟩ := urlsplit_stages d u
  refine ⟨?_, ?_, ?_, ?_⟩
  · rw [hp]
    exact splitTail_fst_all '?' (splitTail '#' R2).1
  · rw [hp]
    apply List.all_eq_true.mpr
    intro x hx
    exact List.all_eq_true.mp (splitTail_fst_all '#' R2) x (splitTail_fst_mem '?' _ x hx)
  · rw [hq]
    apply List.all_eq_true.mpr
    intro x hx
    exact List.all_eq_true.mp (splitTail_fst_all '#' R2) x (splitTail_snd_mem '?' _ x hx)
  · intro x hx
    apply hmem
    rcases hx with hx | hx
    · rw [hp] at hx
      exact splitTail_fst_mem '#' R2 x (splitTail_fst_mem '?' _ x hx)
    · rw [hq] at hx
      exact splitTail_fst_mem '#' R2 x (splitTail_snd_mem '?' _ x hx)

theorem contains_false_of_not_mem (l : List Char) (c : Char) (h : c ∉ l) :
    l.contains c = false := by
  cases hc : l.contains c with
  | false => rfl
  | true => exact absurd (List.mem_of_elem_eq_true hc) h

theorem not_mem_of_contains_false (l : List Char) (c : Char) (h : l.contains c = false) :
    c ∉ l := by
  intro hm
  have h2 : l.contains c = true := List.elem_eq_true_of_mem hm
  rw [h2] at h
  exact absurd h (by decide)

theorem urlparse_semi_free (d u : List Char) (hu : u.contains ';' = false) :
    (urlparse d u).path = (urlsplit d u).path ∧ (urlparse d u).params = []
      ∧ (urlparse d u).path.contains ';' = false
      ∧ (urlparse d u).query.contains ';' = false := by
  have hfacts := (urlsplit_pq_facts d u).2.2.2
  have hpne : (urlsplit d u).path.contains ';' = false := by
    apply contains_false_of_not_mem
    intro hm
    exact not_mem_of_contains_false u ';' hu (hfacts ';' (Or.inl hm)).1
  have hqne : (urlsplit d u).query.contains ';' = false := by
    apply contains_false_of_not_mem
    intro hm
    exact not_mem_of_contains_false u ';' hu (hfacts ';' (Or.inr hm)).1
  unfold urlparse
  rw [if_neg (by rw [hpne]; simp)]
  exact ⟨rfl, rfl, hpne, urlparse_query d u ▸ hqne⟩

theorem splitChar_mem (c : Char) :
    ∀ (l part : List Char), part ∈ splitChar c l → ∀ x ∈ part, x ∈ l := by
  intro l
  induction l with
  | nil =>
    intro part hp x hx
    simp only [splitChar, List.mem_singleton] at hp
    subst hp
    exact absurd hx (List.not_mem_nil x)
  | cons a rest ih =>
    intro part hp x hx
    simp only [splitChar] at hp
    by_cases hac : (a == c) = true
    · rw [if_pos hac] at hp
      rcases List.mem_cons.mp hp with rfl | hp2
      · exact absurd hx (List.not_mem_nil x)
      · exact List.mem_cons_of_mem a (ih part hp2 x hx)
    · rw [if_neg hac] at hp
      rcases hsp : splitChar c rest with - | ⟨p0, ps⟩
      · rw [hsp] at hp
        simp only [List.mem_singleton] at hp
        subst hp
        rcases List.mem_singleton.mp hx with rfl
        exact List.mem_cons_self x rest
      · rw [hsp] at hp
        rcases List.mem_cons.mp hp with rfl | hp2
        · rcases List.mem_cons.mp hx with rfl | hx2
          · exact List.mem_cons_self x rest
          · exact List.mem_cons_of_mem a (ih p0 (hsp ▸ List.mem_cons_self p0 ps) x hx2)
        · exact List.mem_cons_of_mem a
            (ih part (hsp ▸ List.mem_cons_of_mem p0 hp2) x hx)

theorem joinChar_mem (c : Char) :
    ∀ (parts : List (List Char)) (x : Char), x ∈ joinChar c parts →
      x = c ∨ ∃ part, part ∈ parts ∧ x ∈ part := by
  intro parts
  induction parts with
  | nil =>
    intro x hx
    exact absurd hx (List.not_mem_nil x)
  | cons p ps ih =>
    intro x hx
    cases ps with
    | nil =>
      right
      exact ⟨p, List.mem_singleton.mpr rfl, hx⟩
    | cons p2 ps2 =>
      rw [show (joinChar c (p :: p2 :: ps2) = p ++ c :: joinChar c (p2 :: ps2)) from rfl] at hx
      rcases List.mem_append.mp hx with hx1 | hx2
      · exact Or.inr ⟨p, List.mem_cons_self p _, hx1⟩
      · rcases List.mem_cons.mp hx2 with rfl | hx3
        · exact Or.inl rfl
        · rcases ih x hx3 with h | ⟨part, hpm, hxm⟩
          · exact Or.inl h
          · exact Or.inr ⟨part, List.mem_cons_of_mem p hpm, hxm⟩

theorem resolve_foldl_mem (segs : List (List Char)) :
    ∀ (acc : List (List Char)) (part : List Char),
      part ∈ segs.foldl (fun acc seg =>
        if seg = ("..").data then acc.dropLast
        else if seg = (".").data then acc
        else acc ++ [seg]) acc →
      part ∈ acc ∨ part ∈ segs := by
  induction segs with
  | nil =>
    intro acc part hp
    exact Or.inl hp
  | cons s rest ih =>
    intro acc part hp
    rw [List.foldl_cons] at hp
    rcases ih _ part hp with hacc | hrest
    · by_cases h1 : s = ("..").data
      · rw [if_pos h1] at hacc
        exact Or.inl ((List.dropLast_sublist acc).subset hacc)
      · rw [if_neg h1] at hacc
        by_cases h2 : s = (".").data
        · rw [if_pos h2] at hacc
          exact Or.inl hacc
        · rw [if_neg h2] at hacc
          rcases List.mem_append.mp hacc with h | h
          · exact Or.inl h
          · rcases List.mem_singleton.mp h with rfl
            exact Or.inr (List.mem_cons_self part rest)
    · exact Or.inr (List.mem_cons_of_mem s hrest)

set_option maxHeartbeats 1000000 in
theorem urlunsplit_mem (scheme netloc path query fragment : List Char) (x : Char)
    (hx : x ∈ urlunsplit scheme netloc path query fragment) :
    x ∈ scheme ∨ x ∈ netloc ∨ x ∈ path ∨ x ∈ query ∨ x ∈ fragment
      ∨ x = '/' ∨ x = ':' ∨ x = '?' ∨ x = '#' := by
  unfold urlunsplit at hx
  dsimp only at hx
  by_cases h1 : (netloc != [] || (path != [] && startsWithCS (("//").data) path)) = true <;>
  by_cases h2 : (path != [] && !(startsWithCS (("/").data) path)) = true <;>
  by_cases h3 : (scheme != []) = true <;>
  by_cases h4 : (query != []) = true <;>
  by_cases h5 : (fragment != []) = true <;>
  simp only [h1, h2, h3, h4, h5, if_true, if_false, Bool.false_eq_true] at hx <;>
  (try simp only [List.mem_append, List.mem_cons, List.not_mem_nil,
    show (("//").data = ['/', '/']) from rfl] at hx) <;>
  tauto

theorem urlparse_fragment (d u : List Char) :
    (urlparse d u).fragment = (urlsplit d u).fragment := by
  unfold urlparse
  dsimp only
  split <;> rfl

theorem urlunparse_nil_params (s n p q f : List Char) :
    urlunparse s n p [] q f = urlunsplit s n p q f := by
  unfold urlunparse
  simp

theorem urlparse_semi_facts (d u : List Char) (hd : d.contains ';' = false)
    (hu : u.contains ';' = false) :
    (urlparse d u).scheme.contains ';' = false
      ∧ (urlparse d u).netloc.contains ';' = false
      ∧ (urlparse d u).path.contains ';' = false
      ∧ (urlparse d u).params = []
      ∧ (urlparse d u).query.contains ';' = false
      ∧ (urlparse d u).fragment.contains ';' = false := by
  obtain ⟨R2, hmem, hp, hq, hf, hn, hs⟩ := urlsplit_stages d u
  obtain ⟨hpp, hparams, hpc, hqc⟩ := urlparse_semi_free d u hu
  refine ⟨?_, ?_, hpc, hparams, hqc, ?_⟩
  · rw [urlparse_scheme]
    rcases hs with hs | hs
    · rw [hs]
      exact hd
    · exact hs
  · rw [urlparse_netloc]
    apply contains_false_of_not_mem
    intro hm
    exact not_mem_of_contains_false u ';' hu (hn ';' hm).1
  · rw [urlparse_fragment, hf]
    apply contains_false_of_not_mem
    intro hm
    exact not_mem_of_contains_false u ';' hu
      (hmem ';' (splitTail_snd_mem '#' R2 ';' hm)).1

theorem newpath_no_semi (segs : List (List Char))
    (h : ∀ part, part ∈ segs → ';' ∉ part) :
    ';' ∉ (if joinChar '/' (if ((segs.getLast?.getD []) == (".").data
          || (segs.getLast?.getD []) == ("..").data) = true then
        (segs.foldl (fun acc seg =>
          if seg = ("..").data then acc.dropLast
          else if seg = (".").data then acc
          else acc ++ [seg]) ([] : List (List Char))) ++ [[]]
      else segs.foldl (fun acc seg =>
          if seg = ("..").data then acc.dropLast
          else if seg = (".").data then acc
          else acc ++ [seg]) ([] : List (List Char))) = [] then ("/").data
      else joinChar '/' (if ((segs.getLast?.getD []) == (".").data
          || (segs.getLast?.getD []) == ("..").data) = true then
        (segs.foldl (fun acc seg =>
          if seg = ("..").data then acc.dropLast
          else if seg = (".").data then acc
          else acc ++ [seg]) ([] : List (List Char))) ++ [[]]
      else segs.foldl (fun acc seg =>
          if seg = ("..").data then acc.dropLast
          else if seg = (".").data then acc
          else acc ++ [seg]) ([] : List (List Char)))) := by
  intro hm
  by_cases hdots : ((segs.getLast?.getD []) == (".").data
      || (segs.getLast?.getD []) == ("..").data) = true
  · rw [if_pos hdots] at hm
    revert hm
    split
    · intro hm
      exact absurd (List.mem_singleton.mp hm) (by decide)
    · intro hm
      rcases joinChar_mem '/' _ ';' hm with h5 | ⟨part, hpmem, hpin⟩
      · exact absurd h5 (by decide)
      · rcases List.mem_append.mp hpmem with h6 | h6
        · exact h part ((resolve_foldl_mem _ _ part h6).elim
            (fun hacc => absurd hacc (List.not_mem_nil part)) (fun h7 => h7)) hpin
        · rcases List.mem_singleton.mp h6 with rfl
          exact absurd hpin (List.not_mem_nil ';')
  · rw [if_neg hdots] at hm
    revert hm
    split
    · intro hm
      exact absurd (List.mem_singleton.mp hm) (by decide)
    · intro hm
      rcases joinChar_mem '/' _ ';' hm with h5 | ⟨part, hpmem, hpin⟩
      · exact absurd h5 (by decide)
      · exact h part ((resolve_foldl_mem _ _ part hpmem).elim
          (fun hacc => absurd hacc (List.not_mem_nil part)) (fun h7 => h7)) hpin

set_option maxHeartbeats 4000000 in
theorem urljoin_no_semi (base v : List Char) (hb : base.contains ';' = false)
    (hv : v.contains ';' = false) : (urljoin base v).contains ';' = false := by
  unfold urljoin
  by_cases h0 : base = []
  · rw [if_pos h0]
    exact hv
  rw [if_neg h0]
  by_cases h1 : v = []
  · rw [if_pos h1]
    exact hb
  rw [if_neg h1]
  try dsimp only
  obtain ⟨bS, bN, bP, bPar, bQ, bF⟩ := urlparse_semi_facts [] base (by decide) hb
  obtain ⟨uS, uN, uP, uPar, uQ, uF⟩ :=
    urlparse_semi_facts (urlparse [] base).scheme v bS hv
  by_cases h2 : ((urlparse (urlparse [] base).scheme v).scheme != (urlparse [] base).scheme
      || !(uses_relative.contains (urlparse (urlparse [] base).scheme v).scheme)) = true
  · rw [if_pos h2]
    exact hv
  rw [if_neg h2]
  by_cases h3 : (uses_netloc.contains (urlparse (urlparse [] base).scheme v).scheme
      && (urlparse (urlparse [] base).scheme v).netloc != []) = true
  · rw [if_pos h3]
    rw [uPar, urlunparse_nil_params]
    apply contains_false_of_not_mem
    intro hm
    rcases urlunsplit_mem _ _ _ _ _ ';' hm with h | h | h | h | h | h | h | h | h
    · exact not_mem_of_contains_false _ ';' uS h
    · exact not_mem_of_contains_false _ ';' uN h
    · exact not_mem_of_contains_false _ ';' uP h
    · exact not_mem_of_contains_false _ ';' uQ h
    · exact not_mem_of_contains_false _ ';' uF h
    all_goals exact absurd h (by decide)
  rw [if_neg h3]
  try dsimp only
  have hnetloc : (if uses_netloc.contains (urlparse (urlparse [] base).scheme v).scheme = true
      then (urlparse [] base).netloc
      else (urlparse (urlparse [] base).scheme v).netloc).contains ';' = false := by
    split
    · exact bN
    · exact uN
  by_cases h4 : ((urlparse (urlparse [] base).scheme v).path = []
      && (urlparse (urlparse [] base).scheme v).params = []) = true
  · rw [if_pos h4]
    try dsimp only
    rw [bPar, urlunparse_nil_params]
    apply contains_false_of_not_mem
    intro hm
    rcases urlunsplit_mem _ _ _ _ _ ';' hm with h | h | h | h | h | h | h | h | h
    · exact not_mem_of_contains_false _ ';' uS h
    · exact not_mem_of_contains_false _ ';' hnetloc h
    · exact not_mem_of_contains_false _ ';' bP h
    · revert h
      split
      · exact not_mem_of_contains_false _ ';' bQ
      · exact not_mem_of_contains_false _ ';' uQ
    · exact not_mem_of_contains_false _ ';' uF h
    all_goals exact absurd h (by decide)
  rw [if_neg h4]
  rw [uPar, urlunparse_nil_params]
  apply contains_false_of_not_mem
  intro hm
  rcases urlunsplit_mem _ _ _ _ _ ';' hm with h | h | h | h | h | h | h | h | h
  · exact not_mem_of_contains_false _ ';' uS h
  · exact not_mem_of_contains_false _ ';' hnetloc h
  · -- the merged path
    have hbp : ∀ part, part ∈ splitChar '/' (urlparse [] base).path → ';' ∉ part := by
      intro part hpart hm2
      exact not_mem_of_contains_false _ ';' bP (splitChar_mem '/' _ part hpart ';' hm2)
    have hup : ∀ part, part ∈ splitChar '/' (urlparse (urlparse [] base).scheme v).path →
        ';' ∉ part := by
      intro part hpart hm2
      exact not_mem_of_contains_false _ ';' uP (splitChar_mem '/' _ part hpart ';' hm2)
    have hbp2 : ∀ part, part ∈ (if ((splitChar '/'
        (urlparse [] base).path).getLast?.getD []) != [] then
          (splitChar '/' (urlparse [] base).path).dropLast
        else splitChar '/' (urlparse [] base).path) → ';' ∉ part := by
      intro part hpart
      apply hbp part
      revert hpart
      split
      · exact fun hpart => (List.dropLast_sublist _).subset hpart
      · exact fun hpart => hpart
    have hsegs : ∀ part, part ∈ (if startsWithCS (("/").data)
          (urlparse (urlparse [] base).scheme v).path = true then
          splitChar '/' (urlparse (urlparse [] base).scheme v).path
        else
          match (if ((splitChar '/' (urlparse [] base).path).getLast?.getD []) != [] then
              (splitChar '/' (urlparse [] base).path).dropLast
            else splitChar '/' (urlparse [] base).path)
            ++ splitChar '/' (urlparse (urlparse [] base).scheme v).path with
          | [] => []
          | x :: rest =>
            match rest with
            | [] => [x]
            | _ :: _ => x :: ((rest.dropLast.filter (fun s => s != []))
                ++ [rest.getLast?.getD []])) → ';' ∉ part := by
      intro part hpart
      split at hpart
      · exact hup part hpart
      · rcases hcat : (if ((splitChar '/' (urlparse [] base).path).getLast?.getD []) != [] then
            (splitChar '/' (urlparse [] base).path).dropLast
          else splitChar '/' (urlparse [] base).path)
            ++ splitChar '/' (urlparse (urlparse [] base).scheme v).path with - | ⟨x0, rest0⟩
        · rw [hcat] at hpart
          exact absurd hpart (List.not_mem_nil part)
        · rw [hcat] at hpart
          have hxmem : ∀ y, y ∈ x0 :: rest0 → ';' ∉ y := by
            intro y hy
            rw [← hcat] at hy
            rcases List.mem_append.mp hy with hy2 | hy2
            · exact hbp2 y hy2
            · exact hup y hy2
          rcases hrest : rest0 with - | ⟨r1, rrest⟩
          · rw [hrest] at hpart
            rcases List.mem_singleton.mp hpart with rfl
            exact hxmem part (List.mem_cons_self _ _)
          · rw [hrest] at hpart
            rcases List.mem_cons.mp hpart with rfl | hpart2
            · exact hxmem part (List.mem_cons_self _ _)
            · rcases List.mem_append.mp hpart2 with hpart3 | hpart3
              · have : part ∈ (r1 :: rrest).dropLast := List.mem_of_mem_filter hpart3
                have : part ∈ r1 :: rrest := (List.dropLast_sublist _).subset this
                exact hxmem part (hrest ▸ List.mem_cons_of_mem x0 this)
              · rcases List.mem_singleton.mp hpart3 with rfl
                intro hm3
                rcases hlast : (r1 :: rrest).getLast? with - | y
                · simp at hlast
                · rw [hlast] at hm3
                  simp only [Option.getD_some] at hm3
                  exact hxmem y
                    (hrest ▸ List.mem_cons_of_mem x0 (List.mem_of_mem_getLast? hlast)) hm3
    exact newpath_no_semi _ hsegs h
  · exact not_mem_of_contains_false _ ';' uQ h
  · exact not_mem_of_contains_false _ ';' uF h
  all_goals exact absurd h (by decide)

theorem originWF_scheme_facts (scheme target : List Char)
    (ho : originWF scheme target = true) :
    scheme ≠ []
      ∧ (∀ c st, scheme = c :: st → c.isAlpha = true)
      ∧ scheme.all isSchemeChar = true
      ∧ scheme.contains ';' = false := by
  simp only [originWF, Bool.and_eq_true] at ho
  obtain ⟨⟨⟨h1, h2⟩, h3⟩, h4⟩ := ho
  refine ⟨bne_iff_ne.mp h1, ?_, h3, ?_⟩
  · intro c st he
    subst he
    exact h2
  · apply contains_false_of_not_mem
    intro hm
    have := List.all_eq_true.mp h3 ';' hm
    exact absurd this (by decide)

theorem originWF_target_facts (scheme target : List Char)
    (ho : originWF scheme target = true) :
    target.all notNetlocEnd = true
      ∧ target.all keptByUnsafeRemoval = true
      ∧ target.contains ';' = false := by
  simp only [originWF, Bool.and_eq_true] at ho
  obtain ⟨-, h4⟩ := ho
  refine ⟨?_, ?_, ?_⟩
  · apply List.all_eq_true.mpr
    intro a ha
    have := List.all_eq_true.mp h4 a ha
    simp only [Bool.and_eq_true] at this
    obtain ⟨⟨⟨⟨⟨⟨e1, e2⟩, e3⟩, e4⟩, e5⟩, e6⟩, e7⟩ := this
    simp only [notNetlocEnd, Bool.and_eq_true]
    exact ⟨⟨e1, e2⟩, e3⟩
  · apply List.all_eq_true.mpr
    intro a ha
    have := List.all_eq_true.mp h4 a ha
    simp only [Bool.and_eq_true] at this
    obtain ⟨⟨⟨⟨⟨⟨e1, e2⟩, e3⟩, e4⟩, e5⟩, e6⟩, e7⟩ := this
    simp only [keptByUnsafeRemoval, Bool.and_eq_true]
    exact ⟨⟨e5, e6⟩, e7⟩
  · apply contains_false_of_not_mem
    intro hm
    have := List.all_eq_true.mp h4 ';' hm
    simp only [Bool.and_eq_true] at this
    exact absurd this.1.1.1.2 (by decide)

theorem alpha_ne_slash (c : Char) (h : c.isAlpha = true) : ('/' == c) = false := by
  cases he : ('/' == c) with
  | false => rfl
  | true => rw [← beq_iff_eq.mp he] at h; exact absurd h (by decide)

theorem proxy_base_url_no_semi (scheme target : List Char)
    (hs : scheme.contains ';' = false) (ht : target.contains ';' = false) :
    (proxy_base_url scheme target).contains ';' = false := by
  apply contains_false_of_not_mem
  intro hm
  unfold proxy_base_url at hm
  simp only [List.mem_append] at hm
  rcases hm with (hm | hm) | hm
  · exact not_mem_of_contains_false _ ';' hs hm
  · exact absurd hm (by decide)
  · exact not_mem_of_contains_false _ ';' ht hm

theorem proxy_resolve_no_semi (scheme target v : List Char)
    (hs : scheme.contains ';' = false) (ht : target.contains ';' = false)
    (hv : v.contains ';' = false) :
    (proxy_resolve scheme target v).contains ';' = false := by
  unfold proxy_resolve
  split
  · apply contains_false_of_not_mem
    intro hm
    simp only [List.mem_append, List.mem_cons] at hm
    rcases hm with hm | hm | hm
    · exact not_mem_of_contains_false _ ';' hs hm
    · exact absurd hm (by decide)
    · exact not_mem_of_contains_false _ ';' hv hm
  · split
    · apply contains_false_of_not_mem
      intro hm
      simp only [List.mem_append] at hm
      rcases hm with hm | hm
      · exact not_mem_of_contains_false _ ';' (proxy_base_url_no_semi scheme target hs ht) hm
      · exact not_mem_of_contains_false _ ';' hv hm
    · exact urljoin_no_semi _ v (proxy_base_url_no_semi scheme target hs ht) hv

theorem rewrite_url_ne_nil (scheme target v : List Char) (hv : v ≠ []) :
    rewrite_url scheme target v ≠ [] := by
  unfold rewrite_url
  split
  · exact hv
  · split
    · exact hv
    · dsimp only
      split
      · exact List.cons_ne_nil _ _
      · exact hv

theorem rewrite_url_slash_noq (scheme target p1 : List Char)
    (ho : originWF scheme target = true)
    (h1 : p1.all (fun c => c != '?' && c != '#' && c != ';') = true)
    (h2 : p1.all keptByUnsafeRemoval = true)
    (h3 : ∀ c cs, p1 = c :: cs → (c == '/') = false) :
    rewrite_url scheme target ('/' :: p1) = '/' :: p1 := by
  obtain ⟨hs0, hs1, hs2, hs4⟩ := originWF_scheme_facts scheme target ho
  obtain ⟨ht1, ht2, ht3⟩ := originWF_target_facts scheme target ho
  have hpp : startsWithCS (("//").data) ('/' :: p1) = false := by
    cases hp1c : p1 with
    | nil => rfl
    | cons c cs =>
      have hc : ('/' == c) = false := by
        cases he : ('/' == c) with
        | false => rfl
        | true =>
          have hcc := h3 c cs hp1c
          rw [← beq_iff_eq.mp he] at hcc
          exact absurd hcc (by decide)
      rw [show (("//").data = ['/', '/']) from rfl]
      simp only [startsWithCS, beq_self_eq_true, Bool.true_and, hc, Bool.false_and, Bool.and_true]
  have hres : proxy_resolve scheme target ('/' :: p1)
      = scheme ++ ':' :: '/' :: '/' :: (target ++ '/' :: p1) := by
    unfold proxy_resolve
    rw [hpp]
    simp only [Bool.false_eq_true, if_false]
    rw [show (startsWithCS (("/").data) ('/' :: p1)) = true from rfl]
    simp only [if_true]
    unfold proxy_base_url
    simp [List.append_assoc]
  have hparse : urlparse [] (scheme ++ ':' :: '/' :: '/' :: (target ++ '/' :: p1))
      = ⟨scheme.map Char.toLower, target, '/' :: p1, [], [], []⟩ := by
    apply urlparse_absolute_p [] scheme target ('/' :: p1) hs0 ?_ hs2 ht1 ht2 ?_ ?_ ?_
    · cases scheme with
      | nil => exact absurd rfl hs0
      | cons c st => exact hs1 c st rfl
    · intro c cs h
      injection h with e1 e2
      rw [← e1]
      decide
    · simp only [List.all_cons, Bool.and_eq_true]
      exact ⟨by decide, h1⟩
    · simp only [List.all_cons, Bool.and_eq_true]
      exact ⟨by decide, h2⟩
  have hsd : is_same_domain scheme target
      (scheme ++ ':' :: '/' :: '/' :: (target ++ '/' :: p1)) = true := by
    obtain ⟨sc, st, hsch⟩ : ∃ sc st, scheme = sc :: st := by
      cases scheme with
      | nil => exact absurd rfl hs0
      | cons a as => exact ⟨a, as, rfl⟩
    have hcs : ('/' == sc) = false := alpha_ne_slash sc (hs1 sc st hsch)
    unfold is_same_domain
    rw [if_neg (show ¬(scheme ++ ':' :: '/' :: '/' :: (target ++ '/' :: p1) = []) from by
      rw [hsch]; simp)]
    dsimp only
    rw [show startsWithCS (("//").data) (scheme ++ ':' :: '/' :: '/' :: (target ++ '/' :: p1))
        = false from by
      rw [hsch, show (("//").data = ['/', '/']) from rfl, List.cons_append]
      simp only [startsWithCS, hcs, Bool.false_and]]
    simp only [Bool.false_eq_true, if_false]
    rw [show startsWithCS (("/").data) (scheme ++ ':' :: '/' :: '/' :: (target ++ '/' :: p1))
        = false from by
      rw [hsch, show (("/").data = ['/']) from rfl, List.cons_append]
      simp only [startsWithCS, hcs, Bool.false_and]]
    simp only [Bool.false_eq_true, if_false]
    rw [hparse]
    simp
  unfold rewrite_url
  dsimp only
  rw [show startsWithCS (("data:").data) ('/' :: p1) = false from rfl]
  rw [show startsWithCS (("javascript:").data) ('/' :: p1) = false from rfl]
  simp only [Bool.false_eq_true, if_false]
  rw [hres, hsd]
  simp only [if_true]
  rw [hparse]
  dsimp only
  rw [if_neg (show ¬((([] : List Char) != []) = true) from by decide)]
  cases hp1c : p1 with
  | nil => rfl
  | cons c cs =>
    have hc := h3 c cs hp1c
    simp [List.dropWhile_cons, hc]

theorem rewrite_url_slash_q (scheme target p1 q0 : List Char)
    (ho : originWF scheme target = true)
    (h1 : p1.all (fun c => c != '?' && c != '#' && c != ';') = true)
    (h2 : p1.all keptByUnsafeRemoval = true)
    (h3 : ∀ c cs, p1 = c :: cs → (c == '/') = false)
    (hq0 : q0 ≠ [])
    (hq1 : q0.all (fun c => c != '#') = true)
    (hq2 : q0.all keptByUnsafeRemoval = true) :
    rewrite_url scheme target ('/' :: (p1 ++ '?' :: q0)) = '/' :: (p1 ++ '?' :: q0) := by
  obtain ⟨hs0, hs1, hs2, hs4⟩ := originWF_scheme_facts scheme target ho
  obtain ⟨ht1, ht2, ht3⟩ := originWF_target_facts scheme target ho
  have hpp : startsWithCS (("//").data) ('/' :: (p1 ++ '?' :: q0)) = false := by
    cases hp1c : p1 with
    | nil => rfl
    | cons c cs =>
      have hc : ('/' == c) = false := by
        cases he : ('/' == c) with
        | false => rfl
        | true =>
          have hcc := h3 c cs hp1c
          rw [← beq_iff_eq.mp he] at hcc
          exact absurd hcc (by decide)
      rw [show (("//").data = ['/', '/']) from rfl, List.cons_append]
      simp only [startsWithCS, beq_self_eq_true, Bool.true_and, hc, Bool.false_and, Bool.and_true]
  have hres : proxy_resolve scheme target ('/' :: (p1 ++ '?' :: q0))
      = scheme ++ ':' :: '/' :: '/' :: (target ++ (('/' :: p1) ++ '?' :: q0)) := by
    unfold proxy_resolve
    rw [hpp]
    simp only [Bool.false_eq_true, if_false]
    rw [show (startsWithCS (("/").data) ('/' :: (p1 ++ '?' :: q0))) = true from rfl]
    simp only [if_true]
    unfold proxy_base_url
    simp [List.append_assoc]
  have hparse : urlparse [] (scheme ++ ':' :: '/' :: '/' :: (target ++ (('/' :: p1) ++ '?' :: q0)))
      = ⟨scheme.map Char.toLower, target, '/' :: p1, [], q0, []⟩ := by
    apply urlparse_absolute_pq [] scheme target ('/' :: p1) q0 hs0 ?_ hs2 ht1 ht2 rfl ?_ ?_ hq1 hq2
    · cases scheme with
      | nil => exact absurd rfl hs0
      | cons c st => exact hs1 c st rfl
    · simp only [List.all_cons, Bool.and_eq_true]
      exact ⟨by decide, h1⟩
    · simp only [List.all_cons, Bool.and_eq_true]
      exact ⟨by decide, h2⟩
  have hsd : is_same_domain scheme target
      (scheme ++ ':' :: '/' :: '/' :: (target ++ (('/' :: p1) ++ '?' :: q0))) = true := by
    obtain ⟨sc, st, hsch⟩ : ∃ sc st, scheme = sc :: st := by
      cases scheme with
      | nil => exact absurd rfl hs0
      | cons a as => exact ⟨a, as, rfl⟩
    have hcs : ('/' == sc) = false := alpha_ne_slash sc (hs1 sc st hsch)
    unfold is_same_domain
    rw [if_neg (show ¬(scheme ++ ':' :: '/' :: '/' :: (target ++ (('/' :: p1) ++ '?' :: q0)) = [])
      from by rw [hsch]; simp)]
    dsimp only
    rw [show startsWithCS (("//").data)
        (scheme ++ ':' :: '/' :: '/' :: (target ++ (('/' :: p1) ++ '?' :: q0))) = false from by
      rw [hsch, show (("//").data = ['/', '/']) from rfl, List.cons_append]
      simp only [startsWithCS, hcs, Bool.false_and]]
    simp only [Bool.false_eq_true, if_false]
    rw [show startsWithCS (("/").data)
        (scheme ++ ':' :: '/' :: '/' :: (target ++ (('/' :: p1) ++ '?' :: q0))) = false from by
      rw [hsch, show (("/").data = ['/']) from rfl, List.cons_append]
      simp only [startsWithCS, hcs, Bool.false_and]]
    simp only [Bool.false_eq_true, if_false]
    rw [hparse]
    simp
  unfold rewrite_url
  dsimp only
  rw [show startsWithCS (("data:").data) ('/' :: (p1 ++ '?' :: q0)) = false from rfl]
  rw [show startsWithCS (("javascript:").data) ('/' :: (p1 ++ '?' :: q0)) = false from rfl]
  simp only [Bool.false_eq_true, if_false]
  rw [hres, hsd]
  simp only [if_true]
  rw [hparse]
  dsimp only
  rw [if_pos (bne_iff_ne.mpr hq0)]
  simp only [List.cons_append, List.dropWhile_cons, beq_self_eq_true, if_true]
  cases hp1c : p1 with
  | nil => rfl
  | cons c cs =>
    have hc := h3 c cs hp1c
    simp [List.cons_append, List.dropWhile_cons, hc]

theorem rewrite_url_classify (scheme target v : List Char)
    (ho : originWF scheme target = true)
    (hv : v.contains ';' = false) :
    rewrite_url scheme target v = v
      ∨ (∃ p1, rewrite_url scheme target v = '/' :: p1
          ∧ p1.all (fun c => c != '?' && c != '#' && c != ';') = true
          ∧ p1.all keptByUnsafeRemoval = true
          ∧ (∀ c cs, p1 = c :: cs → (c == '/') = false))
      ∨ (∃ p1 q0, rewrite_url scheme target v = '/' :: (p1 ++ '?' :: q0)
          ∧ p1.all (fun c => c != '?' && c != '#' && c != ';') = true
          ∧ p1.all keptByUnsafeRemoval = true
          ∧ (∀ c cs, p1 = c :: cs → (c == '/') = false)
          ∧ q0 ≠ []
          ∧ q0.all (fun c => c != '#') = true
          ∧ q0.all keptByUnsafeRemoval = true) := by
  obtain ⟨hs0, hs1, hs2, hs4⟩ := originWF_scheme_facts scheme target ho
  obtain ⟨ht1, ht2, ht3⟩ := originWF_target_facts scheme target ho
  by_cases hd : startsWithCS (("data:").data) v = true
  · left
    unfold rewrite_url
    rw [if_pos hd]
  by_cases hj : startsWithCS (("javascript:").data) v = true
  · left
    unfold rewrite_url
    rw [if_neg hd, if_pos hj]
  by_cases hsd : is_same_domain scheme target (proxy_resolve scheme target v) = true
  case neg =>
    left
    unfold rewrite_url
    rw [if_neg hd, if_neg hj]
    dsimp only
    rw [if_neg hsd]
  case pos =>
    have hnos : (proxy_resolve scheme target v).contains ';' = false :=
      proxy_resolve_no_semi scheme target v hs4 ht3 hv
    obtain ⟨hppeq, hparams, hpsemi, hqsemi⟩ :=
      urlparse_semi_free [] (proxy_resolve scheme target v) hnos
    obtain ⟨hpq, hph, hqh, hmemkept⟩ := urlsplit_pq_facts [] (proxy_resolve scheme target v)
    rw [← hppeq] at hpq hph
    rw [← urlparse_query [] (proxy_resolve scheme target v)] at hqh
    have hp3 : (urlparse [] (proxy_resolve scheme target v)).path.all
        (fun c => c != '?' && c != '#' && c != ';') = true := by
      apply List.all_eq_true.mpr
      intro a ha
      simp only [Bool.and_eq_true]
      refine ⟨⟨List.all_eq_true.mp hpq a ha, List.all_eq_true.mp hph a ha⟩, ?_⟩
      cases he : (a != ';') with
      | true => rfl
      | false =>
        rw [bne_eq_false_iff_eq] at he
        subst he
        exact absurd ha (not_mem_of_contains_false _ ';' hpsemi)
    have hpk : (urlparse [] (proxy_resolve scheme target v)).path.all
        keptByUnsafeRemoval = true := by
      rw [hppeq]
      apply List.all_eq_true.mpr
      intro a ha
      exact (hmemkept a (Or.inl ha)).2
    have hqk : (urlparse [] (proxy_resolve scheme target v)).query.all
        keptByUnsafeRemoval = true := by
      rw [urlparse_query]
      apply List.all_eq_true.mpr
      intro a ha
      exact (hmemkept a (Or.inr ha)).2
    have hd1 : (List.dropWhile (fun c => c == '/')
        (urlparse [] (proxy_resolve scheme target v)).path).all
        (fun c => c != '?' && c != '#' && c != ';') = true := by
      apply List.all_eq_true.mpr
      intro a ha
      exact List.all_eq_true.mp hp3 a (mem_of_mem_dropWhileCS _ _ _ ha)
    have hd2 : (List.dropWhile (fun c => c == '/')
        (urlparse [] (proxy_resolve scheme target v)).path).all
        keptByUnsafeRemoval = true := by
      apply List.all_eq_true.mpr
      intro a ha
      exact List.all_eq_true.mp hpk a (mem_of_mem_dropWhileCS _ _ _ ha)
    have hd3 : ∀ c cs, List.dropWhile (fun c => c == '/')
        (urlparse [] (proxy_resolve scheme target v)).path = c :: cs → (c == '/') = false :=
      fun c cs h => dropWhile_head_false _ _ c cs h
    have heq0 : rewrite_url scheme target v
        = '/' :: (List.dropWhile (fun c => c == '/')
            (if (urlparse [] (proxy_resolve scheme target v)).query != []
             then (urlparse [] (proxy_resolve scheme target v)).path
               ++ '?' :: (urlparse [] (proxy_resolve scheme target v)).query
             else (urlparse [] (proxy_resolve scheme target v)).path)) := by
      unfold rewrite_url
      rw [if_neg hd, if_neg hj]
      dsimp only
      rw [if_pos hsd]
    by_cases hq : ((urlparse [] (proxy_resolve scheme target v)).query != []) = true
    · right; right
      rw [if_pos hq] at heq0
      rw [List.dropWhile_append] at heq0
      by_cases hpe : (List.dropWhile (fun c => c == '/')
          (urlparse [] (proxy_resolve scheme target v)).path).isEmpty = true
      · rw [if_pos hpe] at heq0
        rw [show List.dropWhile (fun c => c == '/')
            ('?' :: (urlparse [] (proxy_resolve scheme target v)).query)
            = '?' :: (urlparse [] (proxy_resolve scheme target v)).query from rfl] at heq0
        refine ⟨[], (urlparse [] (proxy_resolve scheme target v)).query, ?_, by decide, by decide,
          (fun c cs h => nomatch h), bne_iff_ne.mp hq, hqh, hqk⟩
        rw [List.nil_append]
        exact heq0
      · rw [if_neg hpe] at heq0
        exact ⟨List.dropWhile (fun c => c == '/')
            (urlparse [] (proxy_resolve scheme target v)).path,
          (urlparse [] (proxy_resolve scheme target v)).query,
          heq0, hd1, hd2, hd3, bne_iff_ne.mp hq, hqh, hqk⟩
    · right; left
      rw [if_neg hq] at heq0
      exact ⟨_, heq0, hd1, hd2, hd3⟩

theorem rewrite_url_fix (scheme target v : List Char)
    (ho : originWF scheme target = true)
    (hv : v.contains ';' = false) :
    rewrite_url scheme target (rewrite_url scheme target v) = rewrite_url scheme target v := by
  rcases rewrite_url_classify scheme target v ho hv with h | ⟨p1, heq, h1, h2, h3⟩
      | ⟨p1, q0, heq, h1, h2, h3, hq0, hq1, hq2⟩
  · rw [h, h]
  · rw [heq]
    exact rewrite_url_slash_noq scheme target p1 ho h1 h2 h3
  · rw [heq]
    exact rewrite_url_slash_q scheme target p1 q0 ho h1 h2 h3 hq0 hq1 hq2

theorem contains_singleton_eq {α : Type} [BEq α] (x y : α) :
    ([x].contains y) = (y == x) := by
  cases h : y == x <;> simp [List.contains, List.elem, h]

mutual
theorem countTag_proxyLinkN (ts : List (List Char)) (scheme target : List Char) :
    ∀ n : Node, countTagN ts (proxyLinkNode scheme target n) = countTagN ts n
  | .elem tag attrs children => by
    simp only [proxyLinkNode, countTagN]
    rw [countTag_proxyLinkL ts scheme target children]
  | .text s => rfl

theorem countTag_proxyLinkL (ts : List (List Char)) (scheme target : List Char) :
    ∀ l : NodeList, countTagL ts (proxyLinkList scheme target l) = countTagL ts l
  | .nil => rfl
  | .cons n ns => by
    simp only [proxyLinkList, countTagL]
    rw [countTag_proxyLinkN ts scheme target n, countTag_proxyLinkL ts scheme target ns]
end

mutual
theorem styleAttrNode_id (bu : List Char) :
    ∀ n : Node, noStyleAttrN n = true → styleAttrNode bu n = n
  | .elem tag attrs children, h => by
    simp only [noStyleAttrN, Bool.and_eq_true] at h
    simp only [styleAttrNode]
    rw [styleAttrList_id bu children h.2]
    have hmap : attrs.map (fun kv =>
        if kv.1 == ("style").data then (kv.1, style_once bu kv.2) else kv) = attrs := by
      have hpt : ∀ kv ∈ attrs, (fun kv =>
          if kv.1 == ("style").data then (kv.1, style_once bu kv.2) else kv) kv = id kv := by
        intro kv hkv
        have hne := List.all_eq_true.mp h.1 kv hkv
        have hbe : (kv.1 == ("style").data) = false := by
          cases hbe2 : (kv.1 == ("style").data) with
          | false => rfl
          | true =>
            rw [show kv.1 = ("style").data from beq_iff_eq.mp hbe2] at hne
            exact absurd hne (by decide)
        simp only [hbe, Bool.false_eq_true, if_false, id_eq]
      calc attrs.map (fun kv =>
            if kv.1 == ("style").data then (kv.1, style_once bu kv.2) else kv)
          = attrs.map id := List.map_congr_left hpt
        _ = attrs := List.map_id attrs
    rw [hmap]
  | .text s, _ => rfl

theorem styleAttrList_id (bu : List Char) :
    ∀ l : NodeList, noStyleAttrL l = true → styleAttrList bu l = l
  | .nil, _ => rfl
  | .cons n ns, h => by
    simp only [noStyleAttrL, Bool.and_eq_true] at h
    simp only [styleAttrList]
    rw [styleAttrNode_id bu n h.1, styleAttrList_id bu ns h.2]
end

mutual
theorem styleElemNode_id (bu : List Char) :
    ∀ n : Node, countTagN [("style").data] n = 0 → styleElemNode bu n = n
  | .elem tag attrs children, h => by
    simp only [countTagN] at h
    have hc : ([("style").data].contains tag) = false := by
      cases hc2 : ([("style").data].contains tag) with
      | false => rfl
      | true => rw [hc2] at h; simp at h
    rw [hc] at h
    simp only [Bool.false_eq_true, if_false, Nat.zero_add] at h
    have htag : (tag == ("style").data) = false := by
      rw [← contains_singleton_eq]
      exact hc
    simp only [styleElemNode, htag, Bool.false_eq_true, if_false]
    rw [styleElemList_id bu children h]
  | .text s, _ => rfl

theorem styleElemList_id (bu : List Char) :
    ∀ l : NodeList, countTagL [("style").data] l = 0 → styleElemList bu l = l
  | .nil, _ => rfl
  | .cons n ns, h => by
    simp only [countTagL] at h
    have h1 : countTagN [("style").data] n = 0 := Nat.eq_zero_of_add_eq_zero_right h
    have h2 : countTagL [("style").data] ns = 0 := Nat.eq_zero_of_add_eq_zero_left h
    simp only [styleElemList]
    rw [styleElemNode_id bu n h1, styleElemList_id bu ns h2]
end

mutual
theorem noStyleAttr_proxyLinkN (scheme target : List Char) :
    ∀ n : Node, noStyleAttrN n = true → noStyleAttrN (proxyLinkNode scheme target n) = true
  | .elem tag attrs children, h => by
    simp only [noStyleAttrN, Bool.and_eq_true] at h
    simp only [proxyLinkNode, noStyleAttrN, Bool.and_eq_true]
    refine ⟨?_, noStyleAttr_proxyLinkL scheme target children h.2⟩
    split
    · apply List.all_eq_true.mpr
      intro kv2 hkv2
      rw [List.mem_map] at hkv2
      obtain ⟨kv, hkv, hmap⟩ := hkv2
      have hkey : kv2.1 = kv.1 := by
        rw [← hmap]
        split <;> rfl
      show (kv2.1 != ("style").data) = true
      rw [hkey]
      exact List.all_eq_true.mp h.1 kv hkv
    · exact h.1
  | .text s, _ => rfl

theorem noStyleAttr_proxyLinkL (scheme target : List Char) :
    ∀ l : NodeList, noStyleAttrL l = true → noStyleAttrL (proxyLinkList scheme target l) = true
  | .nil, _ => rfl
  | .cons n ns, h => by
    simp only [noStyleAttrL, Bool.and_eq_true] at h
    simp only [proxyLinkList, noStyleAttrL, Bool.and_eq_true]
    exact ⟨noStyleAttr_proxyLinkN scheme target n h.1, noStyleAttr_proxyLinkL scheme target ns h.2⟩
end

theorem rfb_nobase : ∀ l : NodeList, countTagL [("base").data] l = 0 →
    removeFirstBaseList l = (false, l)
  | .nil, _ => rfl
  | .cons (.text s) ns, h => by
    simp only [countTagL, countTagN, Nat.zero_add] at h
    simp only [removeFirstBaseList]
    rw [rfb_nobase ns h]
  | .cons (.elem tag attrs children) ns, h => by
    simp only [countTagL, countTagN] at h
    have hc : ([("base").data].contains tag) = false := by
      cases hc2 : ([("base").data].contains tag) with
      | false => rfl
      | true => rw [hc2] at h; simp at h
    rw [hc] at h
    simp only [Bool.false_eq_true, if_false, Nat.zero_add] at h
    have h1 : countTagL [("base").data] children = 0 := Nat.eq_zero_of_add_eq_zero_right h
    have h2 : countTagL [("base").data] ns = 0 := Nat.eq_zero_of_add_eq_zero_left h
    have htag : (tag == ("base").data) = false := by
      rw [← contains_singleton_eq]
      exact hc
    simp only [removeFirstBaseList, htag, Bool.false_eq_true, if_false]
    rw [rfb_nobase children h1]
    dsimp only
    simp only [Bool.false_eq_true, if_false]
    rw [rfb_nobase ns h2]

theorem rfb_false : ∀ l : NodeList, (removeFirstBaseList l).1 = false →
    countTagL [("base").data] l = 0
  | .nil, _ => rfl
  | .cons (.text s) ns, h => by
    simp only [removeFirstBaseList] at h
    simp only [countTagL, countTagN, Nat.zero_add]
    exact rfb_false ns h
  | .cons (.elem tag attrs children) ns, h => by
    simp only [removeFirstBaseList] at h
    by_cases htag : (tag == ("base").data) = true
    · rw [if_pos htag] at h
      exact absurd h (by simp)
    · rw [if_neg htag] at h
      by_cases hrc : (removeFirstBaseList children).1 = true
      · rw [if_pos hrc] at h
        exact absurd h (by simp)
      · rw [if_neg hrc] at h
        have hns := rfb_false ns h
        have hch : countTagL [("base").data] children = 0 := by
          apply rfb_false children
          cases hb : (removeFirstBaseList children).1 with
          | false => rfl
          | true => exact absurd hb hrc
        have hcont : ([("base").data].contains tag) = false := by
          rw [contains_singleton_eq]
          cases hb : (tag == ("base").data) with
          | false => rfl
          | true => exact absurd hb htag
        simp only [countTagL, countTagN, hcont, Bool.false_eq_true, if_false, Nat.zero_add]
        rw [hch, hns]

theorem rfb_count : ∀ l : NodeList, countTagL [("base").data] l ≤ 1 →
    countTagL [("base").data] (removeFirstBaseList l).2 = 0
  | .nil, _ => rfl
  | .cons (.text s) ns, h => by
    simp only [countTagL, countTagN, Nat.zero_add] at h
    simp only [removeFirstBaseList]
    simp only [countTagL, countTagN, Nat.zero_add]
    exact rfb_count ns h
  | .cons (.elem tag attrs children) ns, h => by
    simp only [countTagL, countTagN] at h
    simp only [removeFirstBaseList]
    by_cases htag : (tag == ("base").data) = true
    · rw [if_pos htag]
      dsimp only
      have hcont : ([("base").data].contains tag) = true := by
        rw [contains_singleton_eq]
        exact htag
      rw [hcont] at h
      rw [if_pos rfl] at h
      show countTagL [['b', 'a', 's', 'e']] ns = 0
      omega
    · have hcont : ([("base").data].contains tag) = false := by
        rw [contains_singleton_eq]
        cases hb : (tag == ("base").data) with
        | false => rfl
        | true => exact absurd hb htag
      rw [hcont] at h
      simp only [Bool.false_eq_true, if_false, Nat.zero_add] at h
      rw [if_neg htag]
      by_cases hrc : (removeFirstBaseList children).1 = true
      · rw [if_pos hrc]
        dsimp only
        simp only [countTagL, countTagN, hcont, Bool.false_eq_true, if_false, Nat.zero_add]
        have hch : countTagL [['b', 'a', 's', 'e']] children ≤ 1 := by omega
        have hc2 : countTagL [['b', 'a', 's', 'e']] (removeFirstBaseList children).2 = 0 :=
          rfb_count children hch
        have hge : 1 ≤ countTagL [['b', 'a', 's', 'e']] children := by
          by_contra hlt
          have hz : countTagL [("base").data] children = 0 := by
            show countTagL [['b', 'a', 's', 'e']] children = 0
            omega
          rw [rfb_nobase children hz] at hrc
          exact absurd hrc (by simp)
        omega
      · rw [if_neg hrc]
        dsimp only
        have hch : countTagL [['b', 'a', 's', 'e']] children = 0 := by
          show countTagL [("base").data] children = 0
          apply rfb_false children
          cases hb : (removeFirstBaseList children).1 with
          | false => rfl
          | true => exact absurd hb hrc
        have hns2 : countTagL [['b', 'a', 's', 'e']] (removeFirstBaseList ns).2 = 0 :=
          rfb_count ns (by show countTagL [['b', 'a', 's', 'e']] ns ≤ 1; omega)
        simp only [countTagL, countTagN, hcont, Bool.false_eq_true, if_false, Nat.zero_add]
        omega

theorem rfb_count_le (ts : List (List Char)) : ∀ l : NodeList,
    countTagL ts (removeFirstBaseList l).2 ≤ countTagL ts l
  | .nil => Nat.le_refl 0
  | .cons (.text s) ns => by
    simp only [removeFirstBaseList]
    simp only [countTagL, countTagN, Nat.zero_add]
    exact rfb_count_le ts ns
  | .cons (.elem tag attrs children) ns => by
    simp only [removeFirstBaseList]
    by_cases htag : (tag == ("base").data) = true
    · rw [if_pos htag]
      dsimp only
      simp only [countTagL]
      omega
    · rw [if_neg htag]
      by_cases hrc : (removeFirstBaseList children).1 = true
      · rw [if_pos hrc]
        dsimp only
        simp only [countTagL, countTagN]
        have := rfb_count_le ts children
        omega
      · rw [if_neg hrc]
        dsimp only
        simp only [countTagL, countTagN]
        have := rfb_count_le ts ns
        omega

theorem rfb_linkTame : ∀ l : NodeList, linkTameL l = true →
    linkTameL (removeFirstBaseList l).2 = true
  | .nil, _ => rfl
  | .cons (.text s) ns, h => by
    simp only [linkTameL, linkTameN, Bool.true_and] at h
    simp only [removeFirstBaseList]
    simp only [linkTameL, linkTameN, Bool.true_and]
    exact rfb_linkTame ns h
  | .cons (.elem tag attrs children) ns, h => by
    simp only [linkTameL, Bool.and_eq_true] at h
    simp only [removeFirstBaseList]
    by_cases htag : (tag == ("base").data) = true
    · rw [if_pos htag]
      exact h.2
    · rw [if_neg htag]
      by_cases hrc : (removeFirstBaseList children).1 = true
      · rw [if_pos hrc]
        dsimp only
        simp only [linkTameL, Bool.and_eq_true]
        constructor
        · have h1 := h.1
          simp only [linkTameN, Bool.and_eq_true] at h1 ⊢
          exact ⟨h1.1, rfb_linkTame children h1.2⟩
        · exact h.2
      · rw [if_neg hrc]
        dsimp only
        simp only [linkTameL, Bool.and_eq_true]
        exact ⟨h.1, rfb_linkTame ns h.2⟩

theorem rfb_noStyleAttr : ∀ l : NodeList, noStyleAttrL l = true →
    noStyleAttrL (removeFirstBaseList l).2 = true
  | .nil, _ => rfl
  | .cons (.text s) ns, h => by
    simp only [noStyleAttrL, noStyleAttrN, Bool.true_and] at h
    simp only [removeFirstBaseList]
    simp only [noStyleAttrL, noStyleAttrN, Bool.true_and]
    exact rfb_noStyleAttr ns h
  | .cons (.elem tag attrs children) ns, h => by
    simp only [noStyleAttrL, Bool.and_eq_true] at h
    simp only [removeFirstBaseList]
    by_cases htag : (tag == ("base").data) = true
    · rw [if_pos htag]
      exact h.2
    · rw [if_neg htag]
      by_cases hrc : (removeFirstBaseList children).1 = true
      · rw [if_pos hrc]
        dsimp only
        simp only [noStyleAttrL, Bool.and_eq_true]
        constructor
        · have h1 := h.1
          simp only [noStyleAttrN, Bool.and_eq_true] at h1 ⊢
          exact ⟨h1.1, rfb_noStyleAttr children h1.2⟩
        · exact h.2
      · rw [if_neg hrc]
        dsimp only
        simp only [noStyleAttrL, Bool.and_eq_true]
        exact ⟨h.1, rfb_noStyleAttr ns h.2⟩

mutual
theorem proxyLink_idemN (scheme target : List Char) (ho : originWF scheme target = true) :
    ∀ n : Node, linkTameN n = true →
      proxyLinkNode scheme target (proxyLinkNode scheme target n)
        = proxyLinkNode scheme target n
  | .elem tag attrs children, h => by
    simp only [linkTameN, Bool.and_eq_true] at h
    simp only [proxyLinkNode]
    rw [proxyLink_idemL scheme target ho children h.2]
    by_cases hc : (proxy_tags.contains tag) = true
    · rw [if_pos hc, if_pos hc]
      have hall : attrs.all (fun kv =>
          if proxy_attrs.contains kv.1 then !(kv.2.contains ';') else true) = true := by
        have h1 := h.1
        rw [if_pos hc] at h1
        exact h1
      have hmap : List.map (fun kv =>
            if proxy_attrs.contains kv.1 && kv.2 != [] then
              (kv.1, rewrite_url scheme target kv.2)
            else kv)
          (List.map (fun kv =>
            if proxy_attrs.contains kv.1 && kv.2 != [] then
              (kv.1, rewrite_url scheme target kv.2)
            else kv) attrs)
          = List.map (fun kv =>
            if proxy_attrs.contains kv.1 && kv.2 != [] then
              (kv.1, rewrite_url scheme target kv.2)
            else kv) attrs := by
        rw [List.map_map]
        apply List.map_congr_left
        intro kv hkv
        have hg := List.all_eq_true.mp hall kv hkv
        have hg2 : (if (proxy_attrs.contains kv.1) = true
            then !(kv.2.contains ';') else true) = true := hg
        simp only [Function.comp_apply]
        by_cases hcc : (proxy_attrs.contains kv.1 && (kv.2 != [])) = true
        · have hca := hcc
          simp only [Bool.and_eq_true] at hca
          obtain ⟨ca, cn⟩ := hca
          have hsemi : kv.2.contains ';' = false := by
            rw [if_pos ca] at hg2
            cases hb : kv.2.contains ';' with
            | false => rfl
            | true => rw [hb] at hg2; exact absurd hg2 (by decide)
          rw [if_pos hcc]
          have hw : (rewrite_url scheme target kv.2 != []) = true := by
            rw [bne_iff_ne]
            exact rewrite_url_ne_nil scheme target kv.2 (bne_iff_ne.mp cn)
          have hcc2 : (proxy_attrs.contains (kv.1, rewrite_url scheme target kv.2).1
              && ((kv.1, rewrite_url scheme target kv.2).2 != [])) = true := by
            dsimp only
            rw [ca, hw]
            rfl
          rw [if_pos hcc2]
          dsimp only
          rw [rewrite_url_fix scheme target kv.2 ho hsemi]
        · have hcc2 : (proxy_attrs.contains kv.1 && (kv.2 != [])) = false := by
            cases hb : (proxy_attrs.contains kv.1 && (kv.2 != [])) with
            | false => rfl
            | true => exact absurd hb hcc
          simp only [hcc2, Bool.false_eq_true, if_false]
      rw [hmap]
    · rw [if_neg hc, if_neg hc]
  | .text s, _ => rfl

theorem proxyLink_idemL (scheme target : List Char) (ho : originWF scheme target = true) :
    ∀ l : NodeList, linkTameL l = true →
      proxyLinkList scheme target (proxyLinkList scheme target l)
        = proxyLinkList scheme target l
  | .nil, _ => rfl
  | .cons n ns, h => by
    simp only [linkTameL, Bool.and_eq_true] at h
    simp only [proxyLinkList]
    rw [proxyLink_idemN scheme target ho n h.1, proxyLink_idemL scheme target ho ns h.2]
end

/-- C5 amended: modify_content is idempotent on documents that carry at
most one base element, no style attributes, no style elements, and only
semicolon-free values in the link attributes it rewrites, for an origin
set from an ordinary URL: the second pass finds no base element left,
link rewriting is a fixpoint on its own output, and the style passes do
not fire. -/
theorem claim5_amended (scheme target : List Char) (doc : NodeList)
    (ho : originWF scheme target = true)
    (hb : countTagL [("base").data] doc ≤ 1)
    (hsa : noStyleAttrL doc = true)
    (hse : countTagL [("style").data] doc = 0)
    (hlt : linkTameL doc = true) :
    modify_content_tree scheme target (modify_content_tree scheme target doc)
      = modify_content_tree scheme target doc := by
  have hd1lt : linkTameL (removeFirstBaseList doc).2 = true := rfb_linkTame doc hlt
  have hd1sa : noStyleAttrL (removeFirstBaseList doc).2 = true := rfb_noStyleAttr doc hsa
  have hd1se : countTagL [("style").data] (removeFirstBaseList doc).2 = 0 := by
    have hle := rfb_count_le [("style").data] doc
    omega
  have hd1b : countTagL [("base").data] (removeFirstBaseList doc).2 = 0 := rfb_count doc hb
  have hd2sa : noStyleAttrL (proxyLinkList scheme target (removeFirstBaseList doc).2) = true :=
    noStyleAttr_proxyLinkL scheme target _ hd1sa
  have hd2se : countTagL [("style").data]
      (proxyLinkList scheme target (removeFirstBaseList doc).2) = 0 := by
    rw [countTag_proxyLinkL]
    exact hd1se
  have hd2b : countTagL [("base").data]
      (proxyLinkList scheme target (removeFirstBaseList doc).2) = 0 := by
    rw [countTag_proxyLinkL]
    exact hd1b
  have e1 : modify_content_tree scheme target doc
      = proxyLinkList scheme target (removeFirstBaseList doc).2 := by
    simp only [modify_content_tree]
    rw [styleAttrList_id (proxy_base_url scheme target) _ hd2sa]
    rw [styleElemList_id (proxy_base_url scheme target) _ hd2se]
  rw [e1]
  simp only [modify_content_tree]
  rw [rfb_nobase (proxyLinkList scheme target (removeFirstBaseList doc).2) hd2b]
  dsimp only
  rw [proxyLink_idemL scheme target ho _ hd1lt]
  rw [styleAttrList_id (proxy_base_url scheme target) _ hd2sa]
  rw [styleElemList_id (proxy_base_url scheme target) _ hd2se]

/-- C5 counterexample: modify_content is not idempotent in general.
Three independent failures: a document with two base elements keeps one
base after the first pass and loses it in the second; a link value with
a non-uses_params scheme ("a:b;") becomes "/b;" on the first pass and
"/b" on the second, because the second resolve lands on the http scheme
whose params are split off; and a nested inline style
"url(/p)url(/aurl(/p)" changes again on the second pass because the
textual replacement rewrites an occurrence inside the other match and
leaves a fresh root-relative occurrence behind. -/
theorem claim5_counterexample :
    countTagL [("base").data]
        (modify_content_tree (("http").data) (("example.com").data) twoBaseDoc) = 1
      ∧ countTagL [("base").data]
          (modify_content_tree (("http").data) (("example.com").data)
            (modify_content_tree (("http").data) (("example.com").data) twoBaseDoc)) = 0
      ∧ firstAttrs (modify_content_tree (("http").data) (("example.com").data) semiDoc)
          = [((("href").data), (("/b;").data))]
      ∧ firstAttrs (modify_content_tree (("http").data) (("example.com").data)
            (modify_content_tree (("http").data) (("example.com").data) semiDoc))
          = [((("href").data), (("/b").data))]
      ∧ firstAttrs (modify_content_tree (("http").data) (("example.com").data)
            (modify_content_tree (("http").data) (("example.com").data) styleDoc))
          ≠ firstAttrs (modify_content_tree (("http").data) (("example.com").data) styleDoc) := by
  refine ⟨rfl, rfl, rfl, rfl, by decide⟩

/-- Witness for claim5_amended: the well-behaved page with one base
element, an absolute same-origin anchor and a root-relative image is
rewritten idempotently. -/
theorem claim5_amended_witness :
    originWF (("http").data) (("example.com").data) = true
      ∧ countTagL [("base").data] claim5WitnessDoc ≤ 1
      ∧ noStyleAttrL claim5WitnessDoc = true
      ∧ countTagL [("style").data] claim5WitnessDoc = 0
      ∧ linkTameL claim5WitnessDoc = true
      ∧ modify_content_tree (("http").data) (("example.com").data)
          (modify_content_tree (("http").data) (("example.com").data) claim5WitnessDoc)
        = modify_content_tree (("http").data) (("example.com").data) claim5WitnessDoc :=
  ⟨by decide, by decide, by decide, by decide, by decide,
    claim5_amended (("http").data) (("example.com").data) claim5WitnessDoc
      (by decide) (by decide) (by decide) (by decide) (by decide)⟩
